import Mathlib

/-!
# Front end of the Nix expression language: attribute-set desugaring,
# diagnostics and file loading

Shallow embedding of `src/libexpr/parser.cc`, and of the string encoder
`toJSON` of `src/libutil/json.cc`.

* `ATerm` is the term algebra of the ATerm library the parser builds its
  syntax trees with; the `make*` / `match*` functions are the generated
  constructors and matchers of `constructors.hh`.
* `fixAttrs` is the desugarer of attribute-set literals.
* `parseError`, `parse`, `parseExprFromFile`, `parseExprFromString` are the
  parse driver and the file loader; the grammar parser, the scope checker,
  the path utilities and the operating system are collaborators that are
  passed in as a record (`Env`).
* `toJSON` is the buffered string encoder, `encodeRef` its unbuffered
  reference and `decode` a decoder for its output.
-/

namespace Nix

/-! ## Term algebra -/

/-- An ATerm: a function application `f(t1, ..., tn)`, a quoted string
constant, an integer, or a list of terms. Terms are immutable values. -/
inductive ATerm where
  | appl (sym : String) (args : List ATerm)
  | str (s : String)
  | int (n : Int)
  | list (elems : List ATerm)
  deriving Repr, Inhabited

mutual
/-- Equality of terms is decidable (terms are compared structurally). -/
def ATerm.decEq : (a b : ATerm) → Decidable (a = b)
  | .appl f as, .appl g bs =>
    if h : f = g then
      match ATerm.decEqList as bs with
      | isTrue h2 => isTrue (by rw [h, h2])
      | isFalse h2 => isFalse (by intro e; cases e; exact h2 rfl)
    else isFalse (by intro e; cases e; exact h rfl)
  | .str s, .str t =>
    if h : s = t then isTrue (by rw [h]) else isFalse (by intro e; cases e; exact h rfl)
  | .int s, .int t =>
    if h : s = t then isTrue (by rw [h]) else isFalse (by intro e; cases e; exact h rfl)
  | .list as, .list bs =>
    match ATerm.decEqList as bs with
    | isTrue h2 => isTrue (by rw [h2])
    | isFalse h2 => isFalse (by intro e; cases e; exact h2 rfl)
  | .appl _ _, .str _ => isFalse (by intro e; cases e)
  | .appl _ _, .int _ => isFalse (by intro e; cases e)
  | .appl _ _, .list _ => isFalse (by intro e; cases e)
  | .str _, .appl _ _ => isFalse (by intro e; cases e)
  | .str _, .int _ => isFalse (by intro e; cases e)
  | .str _, .list _ => isFalse (by intro e; cases e)
  | .int _, .appl _ _ => isFalse (by intro e; cases e)
  | .int _, .str _ => isFalse (by intro e; cases e)
  | .int _, .list _ => isFalse (by intro e; cases e)
  | .list _, .appl _ _ => isFalse (by intro e; cases e)
  | .list _, .str _ => isFalse (by intro e; cases e)
  | .list _, .int _ => isFalse (by intro e; cases e)
/-- Equality of lists of terms is decidable. -/
def ATerm.decEqList : (as bs : List ATerm) → Decidable (as = bs)
  | [], [] => isTrue rfl
  | [], _ :: _ => isFalse (by intro e; cases e)
  | _ :: _, [] => isFalse (by intro e; cases e)
  | a :: as, b :: bs =>
    match ATerm.decEq a b, ATerm.decEqList as bs with
    | isTrue h1, isTrue h2 => isTrue (by rw [h1, h2])
    | isFalse h1, _ => isFalse (by intro e; cases e; exact h1 rfl)
    | _, isFalse h2 => isFalse (by intro e; cases e; exact h2 rfl)
end

instance : DecidableEq ATerm := ATerm.decEq

abbrev Expr := ATerm
abbrev ATermList := List ATerm
abbrev Path := String

/-- Generated constructor `makeVar(name)`. -/
def makeVar (name : ATerm) : Expr := .appl "Var" [name]

/-- Generated constructor `makeSelect(e, name)`. -/
def makeSelect (e : Expr) (name : ATerm) : Expr := .appl "Select" [e, name]

/-- Generated constructor `makeBind(name, e, pos)`. -/
def makeBind (name : ATerm) (e : Expr) (pos : ATerm) : ATerm :=
  .appl "Bind" [name, e, pos]

/-- Generated constructor `makeAttrs(bs)`. -/
def makeAttrs (bs : ATermList) : Expr := .appl "Attrs" [.list bs]

/-- Generated constructor `makeRec(bs, cs)`: a recursive attribute set keeps
two binding lists. -/
def makeRec (bs cs : ATermList) : Expr := .appl "Rec" [.list bs, .list cs]

/-- Generated constructor `makeInherit(src, names, pos)`. -/
def makeInherit (src : Expr) (names : ATermList) (pos : ATerm) : ATerm :=
  .appl "Inherit" [src, .list names, pos]

/-- Generated constructor `makeScope()`: the marker for "the enclosing
scope" in an `inherit` clause without a source expression. -/
def makeScope : Expr := .appl "Scope" []

/-- Generated matcher `matchInherit(e, src, names, pos)`: succeeds exactly on
`Inherit(src, names, pos)` with `names` a list, and yields the three
fields. -/
def matchInherit : ATerm → Option (Expr × ATermList × ATerm)
  | .appl "Inherit" [src, .list names, pos] => some (src, names, pos)
  | _ => none

/-- Generated matcher `matchScope(e)`: succeeds exactly on `Scope`. -/
def matchScope : ATerm → Bool
  | .appl "Scope" [] => true
  | _ => false

/-- The list operation `ATinsert(l, x)`: put `x` in front of `l`. -/
def ATinsert (l : ATermList) (x : ATerm) : ATermList := x :: l

/-! ## Attribute-set desugarer -/

/-- The two accumulators `bs` and `cs` of `fixAttrs`. -/
structure Acc where
  bs : ATermList
  cs : ATermList
  deriving Repr

/-- The assignment `*is = ATinsert(*is, b)`, where `is` points to `cs` when
`recursive` is non-zero and to `bs` otherwise. -/
def insertIs (recursive : Int) (st : Acc) (b : ATerm) : Acc :=
  if recursive ≠ 0 then { st with cs := ATinsert st.cs b }
  else { st with bs := ATinsert st.bs b }

/-- The inner loop of `fixAttrs` over the names of one `inherit` clause. -/
def inheritLoop (recursive : Int) (src : Expr) (fromScope : Bool) (pos : ATerm)
    (names : ATermList) (st : Acc) : Acc :=
  names.foldl
    (fun st j =>
      let rhs := if fromScope then makeVar j else makeSelect src j
      insertIs recursive st (makeBind j rhs pos))
    st

/-- One iteration of the outer loop of `fixAttrs`. -/
def fixAttrsStep (recursive : Int) (st : Acc) (i : ATerm) : Acc :=
  match matchInherit i with
  | some (src, names, pos) =>
    let fromScope := matchScope src
    inheritLoop recursive src fromScope pos names st
  | none => { st with bs := ATinsert st.bs i }

/-- The outer loop of `fixAttrs`, from a given state of the accumulators. -/
def fixAttrsLoop (recursive : Int) (as : ATermList) (st : Acc) : Acc :=
  as.foldl (fixAttrsStep recursive) st

/-- The accumulators of `fixAttrs` at the point of return. -/
def fixAttrsAcc (recursive : Int) (as : ATermList) : Acc :=
  fixAttrsLoop recursive as { bs := [], cs := [] }

/-- The function `fixAttrs(recursive, as)`. -/
def fixAttrs (recursive : Int) (as : ATermList) : ATerm :=
  let st := fixAttrsAcc recursive as
  if recursive ≠ 0 then makeRec st.bs st.cs else makeAttrs st.bs

/-! ## Diagnostics -/

/-- The scanner behind `format`: `skip` counts the characters of a directive
that are still to be passed over. -/
def formatChars (args : List String) : Nat → List Char → List Char
  | _, [] => []
  | skip + 1, _ :: rest => formatChars args skip rest
  | 0, c :: rest =>
    match c, rest with
    | '%', d :: '%' :: _ =>
      if '1' ≤ d ∧ d ≤ '9' then
        (args.getD (d.toNat - '1'.toNat) "").data ++ formatChars args 2 rest
      else c :: formatChars args 0 rest
    | _, _ => c :: formatChars args 0 rest

/-- The string `(format(fmt) % a1 % ... % an).str()`, for the positional
directives of `boost::format`: in the format string every `%N%` with `N` a
digit from 1 to 9 is replaced by the `N`-th argument (a missing argument
gives nothing), and all other characters are copied. The text of an
argument is not scanned again. An `int` argument is passed as its decimal
text. -/
def format (fmt : String) (args : List String) : String :=
  String.mk (formatChars args 0 fmt.data)

/-- The way a failing call ends: an exception `Error(msg)`, an exception
`SysError(msg)` (the text of `errno` that its constructor appends to `msg`
is left out), or a failed `assert`. -/
inductive Failure where
  | error (msg : String)
  | sysError (msg : String)
  | assertFailed
  deriving DecidableEq, Repr

deriving instance DecidableEq for Except

/-- The record `ParseData` that the grammar parser reads and writes. -/
structure ParseData where
  result : Expr
  basePath : Path
  path : Path
  error : String
  deriving DecidableEq, Repr

/-- The callback `setParseResult(data, t)`. -/
def setParseResult (data : ParseData) (t : ATerm) : ParseData :=
  { data with result := t }

/-- The callback `parseError(data, error, line, column)`. -/
def parseError (data : ParseData) (error : String) (line column : Int) : ParseData :=
  { data with
    error := format "%1%, at `%2%':%3%:%4%"
      [error, data.path, toString line, toString column] }

/-- The callback `getPath(data)`. -/
def getPath (data : ParseData) : String := data.path

/-! ## Collaborators -/

/-- The kind of file that `st_mode` reports. -/
inductive FileType where
  | regular
  | directory
  | symlink
  | other
  deriving DecidableEq, Repr

/-- The fields of `struct stat` that the loader reads. -/
structure Stat where
  mode : FileType
  size : Nat
  deriving DecidableEq, Repr

/-- The macro `S_ISLNK(st.st_mode)`. -/
def S_ISLNK (st : Stat) : Bool := st.mode = FileType.symlink

/-- The macro `S_ISDIR(st.st_mode)`. -/
def S_ISDIR (st : Stat) : Bool := st.mode = FileType.directory

/-- The table of primitive operations of the evaluator. -/
abbrev ATermMap := List (ATerm × ATerm)

/-- The field of `EvalState` that the parser reads. -/
structure EvalState where
  primOps : ATermMap

/-- Everything `parser.cc` calls but does not define: the generated grammar
parser, the scope checker of `nixexpr.cc`, the path utilities of `libutil`
and the system calls, in the state of the world of one call.

* `uninit` is the indeterminate value of the field `result` before the
  grammar parser has set it;
* `yyparse text data` is scanning and parsing the C string `text`
  (`yylex_init`, `yy_scan_string`, `yyparse`, `yylex_destroy`): it gives the
  return code and the `ParseData` as the callbacks left it;
* `checkVarDefs primOps e` gives the message of the `Error` it throws, if
  any;
* `lstat`, `stat`, `openRead`, `fstat` give `none` when the system call
  fails. -/
structure Env where
  uninit : Expr
  yyparse : String → ParseData → Int × ParseData
  checkVarDefs : ATermMap → Expr → Except String Unit
  absPath : Path → Path → Path
  canonPath : Path → Path
  dirOf : Path → Path
  readLink : Path → Except Failure Path
  lstat : Path → Option Stat
  stat : Path → Option Stat
  openRead : Path → Option Nat
  fstat : Nat → Option Stat
  readFull : Nat → Nat → Except Failure String

/-- The callback `absParsedPath(data, t)` on the text of a path literal. -/
def absParsedPath (env : Env) (data : ParseData) (t : String) : ATerm :=
  .str (env.absPath t data.basePath)

/-! ## Parse driver -/

/-- The function `parse(state, text, path, basePath)`. -/
def parse (env : Env) (state : EvalState) (text : String) (path basePath : Path) :
    Except Failure Expr :=
  let data : ParseData :=
    { result := env.uninit, basePath := basePath, path := path, error := "" }
  let r := env.yyparse text data
  let res := r.1
  let data := r.2
  if res ≠ 0 then throw (Failure.error data.error)
  else
    match env.checkVarDefs state.primOps data.result with
    | .error msg => throw (Failure.error (format "%1%, in `%2%'" [msg, path]))
    | .ok _ => pure data.result

/-! ## File loader -/

/-- The part of `parseExprFromFile` before the call of `parse`: it gives the
three arguments `text`, `path` and `dirOf(path)` of that call. Switching to
the original user around the file access is left out. -/
def resolveAndRead (env : Env) (path : Path) : Except Failure (String × Path × Path) := do
  if path.data.head? ≠ some '/' then throw Failure.assertFailed
  let st ← match env.lstat path with
    | none => throw (Failure.sysError (format "getting status of `%1%'" [path]))
    | some st => pure st
  let path ←
    if S_ISLNK st then do
      let target ← env.readLink path
      pure (env.absPath target (env.dirOf path))
    else pure path
  let st ← match env.stat path with
    | none => throw (Failure.sysError (format "getting status of `%1%'" [path]))
    | some st => pure st
  let path := if S_ISDIR st then env.canonPath (path ++ "/default.nix") else path
  let fd ← match env.openRead path with
    | none => throw (Failure.sysError (format "opening `%1%'" [path]))
    | some fd => pure fd
  let st ← match env.fstat fd with
    | none => throw (Failure.sysError (format "statting `%1%'" [path]))
    | some st => pure st
  let text ← env.readFull fd st.size
  pure (text, path, env.dirOf path)

/-- The end of `parseExprFromFile` once `path` has its final value: open the
file, read it whole, and give the arguments of `parse`. -/
def readResolved (env : Env) (path : Path) : Except Failure (String × Path × Path) := do
  let fd ← match env.openRead path with
    | none => throw (Failure.sysError (format "opening `%1%'" [path]))
    | some fd => pure fd
  let st ← match env.fstat fd with
    | none => throw (Failure.sysError (format "statting `%1%'" [path]))
    | some st => pure st
  let text ← env.readFull fd st.size
  pure (text, path, env.dirOf path)

/-- The function `parseExprFromFile(state, path)`. -/
def parseExprFromFile (env : Env) (state : EvalState) (path : Path) :
    Except Failure Expr := do
  let args ← resolveAndRead env path
  parse env state args.1 args.2.1 args.2.2

/-- The function `parseExprFromString(state, s, basePath)`. -/
def parseExprFromString (env : Env) (state : EvalState) (s : String) (basePath : Path) :
    Except Failure Expr :=
  parse env state s "(string)" basePath

/-! ## A sample environment

A small concrete world on which the statements below are evaluated: path
utilities, a file system with a directory `/p` that holds `default.nix`, and
a grammar parser for one path literal. -/

/-- Modelled from the spec: `dirOf` of `libutil`, the directory component of
a path, which is the text before its last slash. -/
def sampleDirOf (p : Path) : Path :=
  String.mk (((p.data.reverse.dropWhile (fun c => c ≠ '/')).drop 1).reverse)

/-- The components of a path: the pieces between slashes. -/
def splitSlash : List Char → List (List Char)
  | [] => [[]]
  | c :: cs =>
    if c = '/' then [] :: splitSlash cs
    else
      match splitSlash cs with
      | [] => [[c]]
      | x :: xs => (c :: x) :: xs

/-- Modelled from the spec: `canonPath` of `libutil`, the normal form of an
absolute path: empty components and `.` are dropped, `..` removes the
component before it, and no symbolic link is followed. -/
def sampleCanonPath (p : Path) : Path :=
  let comps := (splitSlash p.data).foldl
    (fun acc comp =>
      if comp = [] ∨ comp = ['.'] then acc
      else if comp = ['.', '.'] then acc.drop 1
      else comp :: acc)
    []
  if comps = [] then "/"
  else String.mk (comps.reverse.flatMap (fun comp => '/' :: comp))

/-- Modelled from the spec: `absPath` of `libutil`: a relative path is taken
from the directory `dir`, and the result is put in normal form. -/
def sampleAbsPath (p dir : Path) : Path :=
  if p.data.head? = some '/' then sampleCanonPath p
  else sampleCanonPath (dir ++ "/" ++ p)

/-- The sample world. The directory `/p` holds `default.nix` with the text
`./lib.nix`; when `linked` is set, `/p/default.nix` is a symbolic link to
the file `/real/file.nix` that holds this text. The grammar parser accepts
any text as one path literal, and the scope checker accepts every term. -/
def sampleEnv (linked : Bool) : Env where
  uninit := .list []
  yyparse := fun text data =>
    (0, setParseResult data (.appl "Path" [.str (sampleAbsPath text data.basePath)]))
  checkVarDefs := fun _ _ => .ok ()
  absPath := sampleAbsPath
  canonPath := sampleCanonPath
  dirOf := sampleDirOf
  readLink := fun p =>
    if p = "/p/default.nix" ∧ linked = true then .ok "/real/file.nix"
    else .error (Failure.sysError (format "reading symbolic link `%1%'" [p]))
  lstat := fun p =>
    if p = "/p" then some { mode := .directory, size := 0 }
    else if p = "/p/default.nix" then
      some { mode := if linked then .symlink else .regular, size := 9 }
    else if p = "/real/file.nix" ∧ linked = true then
      some { mode := .regular, size := 9 }
    else none
  stat := fun p =>
    if p = "/p" then some { mode := .directory, size := 0 }
    else if p = "/p/default.nix" ∨ (p = "/real/file.nix" ∧ linked = true) then
      some { mode := .regular, size := 9 }
    else none
  openRead := fun p =>
    if p = "/p/default.nix" ∨ (p = "/real/file.nix" ∧ linked = true) then some 3
    else none
  fstat := fun fd => if fd = 3 then some { mode := .regular, size := 9 } else none
  readFull := fun fd n =>
    if fd = 3 ∧ n = 9 then .ok "./lib.nix"
    else .error (Failure.error "unexpected end-of-file")

/-- The sample world with a grammar parser that rejects every text with a
syntax error at line 3, column 5. -/
def syntaxErrorEnv : Env :=
  { sampleEnv false with
    yyparse := fun _ data => (1, parseError data "syntax error" 3 5) }

/-- The sample world with a grammar parser that reads every text as the
variable `x`, and a scope checker that rejects every term. -/
def scopeErrorEnv : Env :=
  { sampleEnv false with
    yyparse := fun _ data => (0, setParseResult data (makeVar (.str "x")))
    checkVarDefs := fun _ _ => .error "undefined variable `x'" }

/-- The sample world with one more entry in `/p`: `link.nix`, a symbolic
link with the relative target `default.nix`, a file of the same
directory. -/
def siblingLinkEnv : Env :=
  { sampleEnv false with
    readLink := fun p =>
      if p = "/p/link.nix" then .ok "default.nix" else (sampleEnv false).readLink p
    lstat := fun p =>
      if p = "/p/link.nix" then some { mode := .symlink, size := 11 }
      else (sampleEnv false).lstat p
    stat := fun p =>
      if p = "/p/link.nix" then some { mode := .regular, size := 9 }
      else (sampleEnv false).stat p
    openRead := fun p =>
      if p = "/p/link.nix" then some 3 else (sampleEnv false).openRead p }

/-- An evaluator state without primitive operations. -/
def sampleState : EvalState := { primOps := [] }

/-! ## Observations on the result of the desugarer -/

/-- Generated matcher `matchBind(e, name, value, pos)`. -/
def matchBind : ATerm → Option (ATerm × Expr × ATerm)
  | .appl "Bind" [name, e, pos] => some (name, e, pos)
  | _ => none

/-- All bindings of an attribute-set node: the list of `Attrs(bs)`, and the
two lists of `Rec(bs, cs)` one after the other. -/
def bindingsOf : ATerm → ATermList
  | .appl "Attrs" [.list bs] => bs
  | .appl "Rec" [.list bs, .list cs] => bs ++ cs
  | _ => []

/-- The names bound by the `Bind` elements of a binding list. -/
def bindNames (l : ATermList) : ATermList :=
  l.filterMap (fun b => (matchBind b).map (fun r => r.1))

/-- The right-hand side that `fixAttrs` gives the inherited name `n`. -/
def inheritRhs (src : Expr) (n : ATerm) : Expr :=
  if matchScope src then makeVar n else makeSelect src n

/-- The bindings of one clause `Inherit(src, names, pos)`, in the order of
`names`. -/
def inheritBinds (src : Expr) (names : ATermList) (pos : ATerm) : ATermList :=
  names.map (fun n => makeBind n (inheritRhs src n) pos)

/-- The desugared bindings of one entry: those of an `inherit` clause, or
the entry itself when it is a plain one. -/
def expand (e : ATerm) : ATermList :=
  match matchInherit e with
  | some (src, names, pos) => inheritBinds src names pos
  | none => [e]

/-- The plain entries of an entry list (those that are no `inherit`
clause), in order. -/
def plainEntries (as : ATermList) : ATermList :=
  as.filter (fun e => (matchInherit e).isNone)

/-- The `inherit` clauses of an entry list, in order. -/
def inheritEntries (as : ATermList) : ATermList :=
  as.filter (fun e => (matchInherit e).isSome)

/-- All desugared bindings of an entry list, in order. -/
def desugared (as : ATermList) : ATermList := as.flatMap expand

/-- The bindings generated from the `inherit` clauses of an entry list. -/
def generated (as : ATermList) : ATermList := (inheritEntries as).flatMap expand

/-- An `Inherit` node: a term whose function symbol is `Inherit`, whatever
its arguments. -/
def isInheritNode : ATerm → Bool
  | .appl "Inherit" _ => true
  | _ => false

/-- The data that `parse` hands to the grammar parser. -/
def initialData (env : Env) (path basePath : Path) : ParseData :=
  { result := env.uninit, basePath := basePath, path := path, error := "" }

/-- The reference desugarer: `Attrs` of the reversed concatenation of the
expansions of all entries, or `Rec` of the reversed plain entries and the
reversed concatenation of the expansions of the `inherit` entries. -/
def fixAttrsRef (recursive : Bool) (entries : ATermList) : ATerm :=
  if recursive then
    makeRec (plainEntries entries).reverse
      ((inheritEntries entries).map expand).flatten.reverse
  else makeAttrs ((entries.map expand).flatten.reverse)

/-- The sum of the lengths of the `names` lists of all `inherit` clauses of
an entry list. -/
def namesTotal (entries : ATermList) : Nat :=
  ((entries.filterMap matchInherit).map (fun r => r.2.1.length)).sum

/-! ## JSON string encoding

Shallow embedding of `toJSON(str, start, end)` of `src/libutil/json.cc`. A
`char` is its integer value, so the same text covers signed and unsigned
`char`. The buffer is the array `buf` with the position `bufPos`; a write
past the end of the array, which is undefined in C, leaves the array as it
is. The stream is the list of the characters written to it by this call. Two
logs record the indices that `put` writes and the sizes that `flush`
writes. -/

/-- The value of a C `char`. -/
abbrev CChar := Int

/-- The value of a character literal. -/
def cc (c : Char) : CChar := (c.toNat : Int)

/-- The constant `BUF_SIZE`. -/
def BUF_SIZE : Nat := 4096

/-- The local state of `toJSON`: the array `buf` (of `BUF_SIZE + 7`
elements), `bufPos`, the characters written to the stream `str`, and the two
logs, newest entry first. -/
structure JsonBuf where
  buf : List CChar
  bufPos : Nat
  str : List CChar
  putLog : List Nat
  flushLog : List Nat

/-- The lambda `flush`: `str.write(buf, bufPos); bufPos = 0`. -/
def flush (s : JsonBuf) : JsonBuf :=
  { s with
    str := s.str ++ s.buf.take s.bufPos
    bufPos := 0
    flushLog := s.bufPos :: s.flushLog }

/-- The lambda `put`: `buf[bufPos++] = c`. -/
def put (s : JsonBuf) (c : CChar) : JsonBuf :=
  { s with
    buf := s.buf.set s.bufPos c
    bufPos := s.bufPos + 1
    putLog := s.bufPos :: s.putLog }

/-- The table `hex`. -/
def hex : List Char := "0123456789abcdef".data

/-- The element `hex[k]`. -/
def hexAt (k : Nat) : CChar := cc (hex.getD k '0')

/-- The conversion `uint16_t(c)`. -/
def uint16 (c : CChar) : Nat := (c % 65536).toNat

/-- The body of the loop of `toJSON` for the character `c`. -/
def toJSONStep (s : JsonBuf) (c : CChar) : JsonBuf :=
  let s := if s.bufPos ≥ BUF_SIZE then flush s else s
  if c = cc '\"' ∨ c = cc '\\' then put (put s (cc '\\')) c
  else if c = cc '\n' then put (put s (cc '\\')) (cc 'n')
  else if c = cc '\r' then put (put s (cc '\\')) (cc 'r')
  else if c = cc '\t' then put (put s (cc '\\')) (cc 't')
  else if c ≥ 0 ∧ c < 32 then
    let s := put s (cc '\\')
    let s := put s (cc 'u')
    let s := put s (hexAt ((uint16 c >>> 12) &&& 0xf))
    let s := put s (hexAt ((uint16 c >>> 8) &&& 0xf))
    let s := put s (hexAt ((uint16 c >>> 4) &&& 0xf))
    let s := put s (hexAt ((uint16 c >>> 0) &&& 0xf))
    s
  else put s c

/-- The state at the start of `toJSON`: `buf` holds indeterminate values,
nothing is written yet. -/
def toJSONInit (garbage : Nat → CChar) : JsonBuf :=
  { buf := (List.range (BUF_SIZE + 7)).map garbage
    bufPos := 0, str := [], putLog := [], flushLog := [] }

/-- The state before the closing quote: the opening quote is put and the
loop has run over the characters from `start` to `end`. -/
def toJSONLoop (garbage : Nat → CChar) (input : List CChar) : JsonBuf :=
  input.foldl toJSONStep (put (toJSONInit garbage) (cc '\"'))

/-- The function `toJSON(str, start, end)` on the characters from `start` to
`end`: the final state, whose field `str` is what the call wrote to the
stream. -/
def toJSON (garbage : Nat → CChar) (input : List CChar) : JsonBuf :=
  flush (put (toJSONLoop garbage input) (cc '\"'))

/-- The lowercase hexadecimal digit of a number below 16. -/
def hexDigit (k : Nat) : CChar :=
  if k < 10 then cc '0' + (k : Int) else cc 'a' + ((k - 10 : Nat) : Int)

/-- The reference encoding of one character: a backslash and the character
for a double quote and a backslash; `\n`, `\r`, `\t` for newline, carriage
return and tab; `\u00XY` for every other character from 0 to 31; the
character itself otherwise. -/
def escapeRef (c : CChar) : List CChar :=
  if c = cc '\"' ∨ c = cc '\\' then [cc '\\', c]
  else if c = 10 then [cc '\\', cc 'n']
  else if c = 13 then [cc '\\', cc 'r']
  else if c = 9 then [cc '\\', cc 't']
  else if 0 ≤ c ∧ c ≤ 31 then
    [cc '\\', cc 'u', cc '0', cc '0', hexDigit (c.toNat / 16), hexDigit (c.toNat % 16)]
  else [c]

/-- The text between the quotes of the reference encoding. -/
def encodeBody (s : List CChar) : List CChar := s.flatMap escapeRef

/-- The unbuffered reference encoding of a string. -/
def encodeRef (s : List CChar) : List CChar :=
  cc '\"' :: encodeBody s ++ [cc '\"']

/-- What a reader of an encoded string is doing: reading ordinary text,
just past an escaping backslash, inside the digits of `\u` (with the number
of digits left and the value so far), or past the closing quote. -/
inductive DecMode where
  | normal
  | escaped
  | digits (left : Nat) (value : Nat)
  | done
  deriving DecidableEq, Repr

/-- The state of the reader: its mode and the characters decoded so far. -/
structure DecState where
  mode : DecMode
  out : List CChar
  deriving DecidableEq, Repr

/-- The value of a hexadecimal digit. -/
def hexValue (c : CChar) : Nat :=
  if cc '0' ≤ c ∧ c ≤ cc '9' then (c - cc '0').toNat
  else if cc 'a' ≤ c ∧ c ≤ cc 'f' then (c - cc 'a').toNat + 10
  else 0

/-- One step of the reader. -/
def decStep (st : DecState) (c : CChar) : DecState :=
  match st.mode with
  | .normal =>
    if c = cc '\"' then { st with mode := .done }
    else if c = cc '\\' then { st with mode := .escaped }
    else { st with out := st.out ++ [c] }
  | .escaped =>
    if c = cc 'n' then { mode := .normal, out := st.out ++ [10] }
    else if c = cc 'r' then { mode := .normal, out := st.out ++ [13] }
    else if c = cc 't' then { mode := .normal, out := st.out ++ [9] }
    else if c = cc 'u' then { st with mode := .digits 4 0 }
    else { mode := .normal, out := st.out ++ [c] }
  | .digits left value =>
    let value := value * 16 + hexValue c
    if left ≤ 1 then { mode := .normal, out := st.out ++ [(value : Int)] }
    else { st with mode := .digits (left - 1) value }
  | .done => st

/-- The reader on a text, from a given state. -/
def decRun (st : DecState) (l : List CChar) : DecState := l.foldl decStep st

/-- The decoder: it passes the opening quote and reads up to the closing
quote. -/
def decode : List CChar → List CChar
  | [] => []
  | _ :: rest => (decRun { mode := .normal, out := [] } rest).out

/-- The invariant of `toJSON`: `buf` has its `BUF_SIZE + 7` elements,
`bufPos` is at most `k`, the stream followed by the filled part of the
buffer is `text`, the stream is the concatenation of all flushes, every
character of `text` went through `put`, and the logs are within bounds. -/
def BufInv (s : JsonBuf) (k : Nat) (text : List CChar) : Prop :=
  s.buf.length = BUF_SIZE + 7 ∧ s.bufPos ≤ k ∧
    s.str ++ s.buf.take s.bufPos = text ∧
    (s.str.length = s.flushLog.sum ∧ s.putLog.length = s.str.length + s.bufPos) ∧
    (∀ i, i ∈ s.putLog → i ≤ BUF_SIZE + 5) ∧
    (∀ n, n ∈ s.flushLog → n ≤ BUF_SIZE + 6)

/-- Entries at their own positions: no plain binding of the list carries the
source position of an `inherit` clause of the list. Every list that the
grammar builds is so, since the position of an entry is its line and column
in the source text. -/
def ownPositions (as : ATermList) : Bool :=
  as.all (fun e => as.all (fun i =>
    match matchBind e, matchInherit i with
    | some (_, _, p), some (_, _, q) => decide (p ≠ q)
    | _, _ => true))

/-! ## The loops of `fixAttrs` in closed form -/

theorem matchInherit_makeInherit (src : Expr) (names : ATermList) (pos : ATerm) :
    matchInherit (makeInherit src names pos) = some (src, names, pos) := rfl

theorem matchInherit_makeBind (n : ATerm) (e : Expr) (pos : ATerm) :
    matchInherit (makeBind n e pos) = none := rfl

theorem matchBind_makeBind (n : ATerm) (e : Expr) (pos : ATerm) :
    matchBind (makeBind n e pos) = some (n, e, pos) := rfl

theorem inheritLoop_eq (recursive : Int) (src : Expr) (pos : ATerm)
    (names : ATermList) (st : Acc) :
    inheritLoop recursive src (matchScope src) pos names st =
      if recursive ≠ 0 then
        { bs := st.bs, cs := (inheritBinds src names pos).reverse ++ st.cs }
      else
        { bs := (inheritBinds src names pos).reverse ++ st.bs, cs := st.cs } := by
  induction names generalizing st with
  | nil => simp [inheritLoop, inheritBinds]
  | cons n ns ih =>
    have hstep : inheritLoop recursive src (matchScope src) pos (n :: ns) st =
        inheritLoop recursive src (matchScope src) pos ns
          (insertIs recursive st (makeBind n (inheritRhs src n) pos)) := rfl
    rw [hstep, ih]
    by_cases h : recursive = 0
    · simp [h, insertIs, ATinsert, inheritBinds]
    · simp [h, insertIs, ATinsert, inheritBinds]

theorem fixAttrsStep_eq (recursive : Int) (st : Acc) (i : ATerm) :
    fixAttrsStep recursive st i =
      if recursive ≠ 0 then
        { bs := (plainEntries [i]).reverse ++ st.bs,
          cs := (generated [i]).reverse ++ st.cs }
      else
        { bs := (expand i).reverse ++ st.bs, cs := st.cs } := by
  unfold fixAttrsStep
  cases hm : matchInherit i with
  | none =>
    by_cases h : recursive = 0 <;>
      simp [h, hm, ATinsert, expand, plainEntries, generated, inheritEntries]
  | some r =>
    obtain ⟨src, names, pos⟩ := r
    simp only [inheritLoop_eq]
    by_cases h : recursive = 0 <;>
      simp [h, hm, expand, plainEntries, generated, inheritEntries]

theorem fixAttrsLoop_rec (recursive : Int) (hrec : recursive ≠ 0) (as : ATermList)
    (st : Acc) :
    fixAttrsLoop recursive as st =
      { bs := (plainEntries as).reverse ++ st.bs,
        cs := (generated as).reverse ++ st.cs } := by
  induction as generalizing st with
  | nil => simp [fixAttrsLoop, plainEntries, generated, inheritEntries]
  | cons a as ih =>
    have hstep : fixAttrsLoop recursive (a :: as) st =
        fixAttrsLoop recursive as (fixAttrsStep recursive st a) := rfl
    rw [hstep, ih, fixAttrsStep_eq]
    cases hm : matchInherit a <;>
      simp [hrec, hm, plainEntries, generated, inheritEntries, List.filter_cons]

theorem fixAttrsLoop_nonrec (as : ATermList) (st : Acc) :
    fixAttrsLoop 0 as st =
      { bs := (desugared as).reverse ++ st.bs, cs := st.cs } := by
  induction as generalizing st with
  | nil => simp [fixAttrsLoop, desugared]
  | cons a as ih =>
    have hstep : fixAttrsLoop 0 (a :: as) st =
        fixAttrsLoop 0 as (fixAttrsStep 0 st a) := rfl
    rw [hstep, ih, fixAttrsStep_eq]
    simp [desugared]

theorem fixAttrs_rec (recursive : Int) (hrec : recursive ≠ 0) (as : ATermList) :
    fixAttrs recursive as =
      makeRec (plainEntries as).reverse (generated as).reverse := by
  simp [fixAttrs, fixAttrsAcc, fixAttrsLoop_rec recursive hrec, hrec]

theorem fixAttrs_nonrec (as : ATermList) :
    fixAttrs 0 as = makeAttrs (desugared as).reverse := by
  simp [fixAttrs, fixAttrsAcc, fixAttrsLoop_nonrec]

theorem bindingsOf_makeRec (bs cs : ATermList) :
    bindingsOf (makeRec bs cs) = bs ++ cs := rfl

theorem bindingsOf_makeAttrs (bs : ATermList) :
    bindingsOf (makeAttrs bs) = bs := rfl

/-- The desugared bindings are the plain entries together with the
generated bindings, up to order. -/
theorem desugared_perm (as : ATermList) :
    (desugared as).Perm (plainEntries as ++ generated as) := by
  induction as with
  | nil => simp [desugared, plainEntries, generated, inheritEntries]
  | cons a as ih =>
    have hd : desugared (a :: as) = expand a ++ desugared as := by
      simp [desugared]
    rw [hd]
    cases hm : matchInherit a with
    | none =>
      have h1 : plainEntries (a :: as) = a :: plainEntries as := by
        simp [plainEntries, List.filter_cons, hm]
      have h2 : generated (a :: as) = generated as := by
        simp [generated, inheritEntries, List.filter_cons, hm]
      have h3 : expand a = [a] := by simp [expand, hm]
      rw [h1, h2, h3]
      simpa using ih
    | some r =>
      have h1 : plainEntries (a :: as) = plainEntries as := by
        simp [plainEntries, List.filter_cons, hm]
      have h2 : generated (a :: as) = expand a ++ generated as := by
        simp [generated, inheritEntries, List.filter_cons, hm]
      rw [h1, h2]
      exact (List.Perm.append_left (expand a) ih).trans
        (List.perm_append_comm_assoc _ _ _)

/-- All bindings of the returned node are the desugared bindings, up to
order, for both values of `recursive`. -/
theorem bindingsOf_fixAttrs_perm (recursive : Int) (as : ATermList) :
    (bindingsOf (fixAttrs recursive as)).Perm (desugared as) := by
  by_cases h : recursive = 0
  · subst h
    rw [fixAttrs_nonrec, bindingsOf_makeAttrs]
    exact List.reverse_perm _
  · rw [fixAttrs_rec recursive h, bindingsOf_makeRec]
    exact ((List.reverse_perm _).append (List.reverse_perm _)).trans
      (desugared_perm as).symm

theorem mem_bindingsOf_fixAttrs (recursive : Int) (as : ATermList) (b : ATerm) :
    b ∈ bindingsOf (fixAttrs recursive as) ↔ b ∈ desugared as :=
  (bindingsOf_fixAttrs_perm recursive as).mem_iff

/-! ## Desugaring of `inherit` clauses -/

/-- C1: for every call `fixAttrs(recursive, as)` and every entry
`Inherit(src, names, pos)` of `as` whose `src` is the enclosing-scope marker
(`matchScope(src)` holds), the returned node contains, for every `n` in
`names`, the binding `Bind(n, Var(n), pos)` with the position of that
clause. -/
theorem fixAttrs_inherit_from_scope (recursive : Int) (as : ATermList)
    (src : Expr) (names : ATermList) (pos n : ATerm)
    (hentry : makeInherit src names pos ∈ as)
    (hscope : matchScope src = true) (hn : n ∈ names) :
    makeBind n (makeVar n) pos ∈ bindingsOf (fixAttrs recursive as) := by
  rw [mem_bindingsOf_fixAttrs]
  simp only [desugared, List.mem_flatMap]
  refine ⟨makeInherit src names pos, hentry, ?_⟩
  simp only [expand, matchInherit_makeInherit, inheritBinds, List.mem_map]
  exact ⟨n, hn, by simp [inheritRhs, hscope]⟩

theorem fixAttrs_inherit_from_scope_witness :
    makeBind (.str "a") (makeVar (.str "a")) (.str "p") ∈
      bindingsOf (fixAttrs 1
        [makeBind (.str "c") (.int 1) (.str "q"),
         makeInherit makeScope [.str "a", .str "b"] (.str "p")]) :=
  fixAttrs_inherit_from_scope 1 _ makeScope [.str "a", .str "b"] (.str "p")
    (.str "a") (by decide) (by decide) (by decide)

/-- C2: for every call `fixAttrs(recursive, as)` and every entry
`Inherit(src, names, pos)` of `as` whose `src` is an explicit expression
(`matchScope(src)` fails), the returned node contains, for every `n` in
`names`, the binding `Bind(n, Select(src, n), pos)`: every generated
`Select` has the same source term `src`, and the binding carries the
position of that clause. -/
theorem fixAttrs_inherit_from_expr (recursive : Int) (as : ATermList)
    (src : Expr) (names : ATermList) (pos n : ATerm)
    (hentry : makeInherit src names pos ∈ as)
    (hscope : matchScope src = false) (hn : n ∈ names) :
    makeBind n (makeSelect src n) pos ∈ bindingsOf (fixAttrs recursive as) := by
  rw [mem_bindingsOf_fixAttrs]
  simp only [desugared, List.mem_flatMap]
  refine ⟨makeInherit src names pos, hentry, ?_⟩
  simp only [expand, matchInherit_makeInherit, inheritBinds, List.mem_map]
  exact ⟨n, hn, by simp [inheritRhs, hscope]⟩

theorem fixAttrs_inherit_from_expr_witness :
    makeBind (.str "b") (makeSelect (makeVar (.str "E")) (.str "b")) (.str "p") ∈
      bindingsOf (fixAttrs 0
        [makeInherit (makeVar (.str "E")) [.str "a", .str "b"] (.str "p"),
         makeBind (.str "c") (.int 1) (.str "q")]) :=
  fixAttrs_inherit_from_expr 0 _ (makeVar (.str "E")) [.str "a", .str "b"]
    (.str "p") (.str "b") (by decide) (by decide) (by decide)

/-- C3: for every explicit source expression `E` (`matchScope(E)` fails),
position `pos` and list of distinct names, `fixAttrs(0, [Inherit(E, names,
pos)])` returns `Attrs(bs)` where `bs`, as a set, is exactly
`{ Bind(n, Select(E, n), pos) | n in names }`, without repetition and with as
many bindings as names, and no binding of `bs` has a `Var` as its value. -/
theorem fixAttrs_nonrec_single_inherit (E : Expr) (names : ATermList) (pos : ATerm)
    (hE : matchScope E = false) (hnames : names.Nodup) :
    ∃ bs, fixAttrs 0 [makeInherit E names pos] = makeAttrs bs ∧
      (∀ b, b ∈ bs ↔ ∃ n, n ∈ names ∧ b = makeBind n (makeSelect E n) pos) ∧
      bs.Nodup ∧ bs.length = names.length ∧
      (∀ b, b ∈ bs → ∀ n v p m, b = makeBind n v p → v ≠ makeVar m) := by
  refine ⟨(names.map (fun n => makeBind n (makeSelect E n) pos)).reverse, ?_, ?_, ?_, ?_, ?_⟩
  · rw [fixAttrs_nonrec]
    simp [desugared, expand, matchInherit_makeInherit, inheritBinds, inheritRhs, hE]
  · intro b
    simp only [List.mem_reverse, List.mem_map]
    constructor
    · rintro ⟨n, hn, rfl⟩; exact ⟨n, hn, rfl⟩
    · rintro ⟨n, hn, rfl⟩; exact ⟨n, hn, rfl⟩
  · rw [List.nodup_reverse]
    refine List.Nodup.map ?_ hnames
    intro x y hxy
    simp only [makeBind, ATerm.appl.injEq, List.cons.injEq, true_and] at hxy
    exact hxy.1
  · simp
  · intro b hb n v p m hbv
    simp only [List.mem_reverse, List.mem_map] at hb
    obtain ⟨k, _, rfl⟩ := hb
    simp only [makeBind, ATerm.appl.injEq, List.cons.injEq, true_and] at hbv
    rw [← hbv.2.1]
    simp [makeSelect, makeVar]

theorem fixAttrs_nonrec_single_inherit_witness :
    ∃ bs, fixAttrs 0 [makeInherit (makeVar (.str "E")) [.str "a", .str "b"] (.str "p")]
        = makeAttrs bs ∧
      (∀ b, b ∈ bs ↔ ∃ n, n ∈ [ATerm.str "a", ATerm.str "b"] ∧
        b = makeBind n (makeSelect (makeVar (.str "E")) n) (.str "p")) ∧
      bs.Nodup ∧ bs.length = [ATerm.str "a", ATerm.str "b"].length ∧
      (∀ b, b ∈ bs → ∀ n v p m, b = makeBind n v p → v ≠ makeVar m) :=
  fixAttrs_nonrec_single_inherit (makeVar (.str "E")) [.str "a", .str "b"] (.str "p")
    (by decide) (by decide)

/-! ## Duplicate names -/

/-- C4, as stated, fails: `fixAttrs` has no duplicate check. Two plain
bindings named `x`, two `inherit` clauses for `x`, and a plain binding with
an `inherit` of the same name all yield a node (never an error) in which
`x` is bound twice. -/
theorem fixAttrs_keeps_duplicates :
    fixAttrs 0 [makeBind (.str "x") (.int 1) (.str "p1"),
                makeBind (.str "x") (.int 2) (.str "p2")]
      = makeAttrs [makeBind (.str "x") (.int 2) (.str "p2"),
                   makeBind (.str "x") (.int 1) (.str "p1")] ∧
    ¬ (bindNames (bindingsOf (fixAttrs 0
        [makeBind (.str "x") (.int 1) (.str "p1"),
         makeBind (.str "x") (.int 2) (.str "p2")]))).Nodup ∧
    ¬ (bindNames (bindingsOf (fixAttrs 0
        [makeInherit makeScope [.str "x"] (.str "p1"),
         makeInherit (makeVar (.str "E")) [.str "x"] (.str "p2")]))).Nodup ∧
    fixAttrs 1 [makeBind (.str "x") (.int 1) (.str "p1"),
                makeInherit makeScope [.str "x"] (.str "p2")]
      = makeRec [makeBind (.str "x") (.int 1) (.str "p1")]
                [makeBind (.str "x") (makeVar (.str "x")) (.str "p2")] ∧
    ¬ (bindNames (bindingsOf (fixAttrs 1
        [makeBind (.str "x") (.int 1) (.str "p1"),
         makeInherit makeScope [.str "x"] (.str "p2")]))).Nodup := by
  decide

/-- C4, amended: `fixAttrs` never fails and checks no names. For every entry
list and both values of `recursive` it returns an `Attrs` or `Rec` node whose
bindings, all lists together, are a rearrangement of the desugared bindings
of the entries; hence the node has at most one `Bind` per name exactly when
the desugared bindings have pairwise distinct names. -/
theorem fixAttrs_nodup_iff (recursive : Int) (as : ATermList) :
    (∃ bs cs, fixAttrs recursive as = makeAttrs bs ∨
        fixAttrs recursive as = makeRec bs cs) ∧
      (bindingsOf (fixAttrs recursive as)).Perm (desugared as) ∧
      ((bindNames (bindingsOf (fixAttrs recursive as))).Nodup ↔
        (bindNames (desugared as)).Nodup) := by
  refine ⟨?_, bindingsOf_fixAttrs_perm recursive as, ?_⟩
  · by_cases h : recursive = 0
    · subst h
      exact ⟨_, [], Or.inl (fixAttrs_nonrec as)⟩
    · exact ⟨_, _, Or.inr (fixAttrs_rec recursive h as)⟩
  · exact List.Perm.nodup_iff
      ((bindingsOf_fixAttrs_perm recursive as).filterMap _)

/-! ## Shape of the returned node -/

/-- C5, as stated, fails: the recursive node has two binding lists, not one
concatenated list. For a plain binding `c` and `inherit a;` the result is
`Rec([c], [a = a])`, which is not `Rec([c, a = a])`. -/
theorem fixAttrs_rec_two_lists :
    fixAttrs 1 [makeBind (.str "c") (.int 1) (.str "q"),
                makeInherit makeScope [.str "a"] (.str "p")]
      = .appl "Rec"
          [.list [makeBind (.str "c") (.int 1) (.str "q")],
           .list [makeBind (.str "a") (makeVar (.str "a")) (.str "p")]] ∧
    fixAttrs 1 [makeBind (.str "c") (.int 1) (.str "q"),
                makeInherit makeScope [.str "a"] (.str "p")]
      ≠ .appl "Rec"
          [.list ([makeBind (.str "c") (.int 1) (.str "q")] ++
                  [makeBind (.str "a") (makeVar (.str "a")) (.str "p")])] := by
  decide

/-- C5, amended: for every entry list, `fixAttrs(recursive, as)` with
`recursive` non-zero returns the recursive node `Rec(bs, cs)` with two
separate binding lists: `bs` is the non-recursive accumulator, holding the
plain entries, and `cs` is the recursive accumulator, holding the bindings
generated from `inherit` clauses (each in reverse order of insertion). The
concatenation `bs ++ cs` is the combined bindings of the node. -/
theorem fixAttrs_rec_node (recursive : Int) (as : ATermList) (hrec : recursive ≠ 0) :
    fixAttrs recursive as
        = makeRec (fixAttrsAcc recursive as).bs (fixAttrsAcc recursive as).cs ∧
      (fixAttrsAcc recursive as).bs = (plainEntries as).reverse ∧
      (fixAttrsAcc recursive as).cs = (generated as).reverse ∧
      bindingsOf (fixAttrs recursive as)
        = (fixAttrsAcc recursive as).bs ++ (fixAttrsAcc recursive as).cs := by
  have hacc : fixAttrsAcc recursive as =
      { bs := (plainEntries as).reverse, cs := (generated as).reverse } := by
    simp [fixAttrsAcc, fixAttrsLoop_rec recursive hrec]
  refine ⟨?_, ?_, ?_, ?_⟩
  · simp [fixAttrs, hrec]
  · rw [hacc]
  · rw [hacc]
  · simp [fixAttrs, hrec, bindingsOf_makeRec]

theorem fixAttrs_rec_node_witness :
    fixAttrs 1 [makeBind (.str "c") (.int 1) (.str "q"),
                makeInherit makeScope [.str "a"] (.str "p")]
        = makeRec
            (fixAttrsAcc 1 [makeBind (.str "c") (.int 1) (.str "q"),
                makeInherit makeScope [.str "a"] (.str "p")]).bs
            (fixAttrsAcc 1 [makeBind (.str "c") (.int 1) (.str "q"),
                makeInherit makeScope [.str "a"] (.str "p")]).cs :=
  (fixAttrs_rec_node 1 _ (by decide)).1

/-- C6: for every entry list, `fixAttrs(0, as)` returns `Attrs(bs)` with `bs`
the non-recursive accumulator; at the point of return the recursive
accumulator `cs` is empty, and `bs` holds every desugared binding of the
entries (all of them, in reverse order of insertion), so none is dropped. -/
theorem fixAttrs_nonrec_node (as : ATermList) :
    fixAttrs 0 as = makeAttrs (fixAttrsAcc 0 as).bs ∧
      (fixAttrsAcc 0 as).cs = [] ∧
      (fixAttrsAcc 0 as).bs = (desugared as).reverse ∧
      (∀ b, b ∈ desugared as → b ∈ bindingsOf (fixAttrs 0 as)) := by
  have hacc : fixAttrsAcc 0 as = { bs := (desugared as).reverse, cs := [] } := by
    simp [fixAttrsAcc, fixAttrsLoop_nonrec]
  refine ⟨?_, ?_, ?_, ?_⟩
  · simp [fixAttrs]
  · rw [hacc]
  · rw [hacc]
  · intro b hb
    exact (mem_bindingsOf_fixAttrs 0 as b).2 hb

/-- C7: for every position `pos`, names `a`, `b` and plain binding
`c = Bind(cn, v, cp)` (in particular with `v` the expression `a + b`),
`fixAttrs(recursive, [Inherit(Scope, [a, b], pos), c])` with `recursive`
non-zero returns `Rec([c], [Bind(b, Var(b), pos), Bind(a, Var(a), pos)])`:
over both lists together its bindings are exactly `Bind(a, Var(a), pos)`,
`Bind(b, Var(b), pos)` and the unchanged `c`, three in all. -/
theorem fixAttrs_rec_inherit_plain (recursive : Int) (a b pos cn v cp : ATerm)
    (hrec : recursive ≠ 0) :
    fixAttrs recursive [makeInherit makeScope [a, b] pos, makeBind cn v cp]
        = makeRec [makeBind cn v cp]
            [makeBind b (makeVar b) pos, makeBind a (makeVar a) pos] ∧
      (∀ x, x ∈ bindingsOf
            (fixAttrs recursive [makeInherit makeScope [a, b] pos, makeBind cn v cp]) ↔
          x = makeBind a (makeVar a) pos ∨ x = makeBind b (makeVar b) pos ∨
            x = makeBind cn v cp) ∧
      (bindingsOf
        (fixAttrs recursive [makeInherit makeScope [a, b] pos, makeBind cn v cp])).length
        = 3 := by
  have h : fixAttrs recursive [makeInherit makeScope [a, b] pos, makeBind cn v cp]
      = makeRec [makeBind cn v cp]
          [makeBind b (makeVar b) pos, makeBind a (makeVar a) pos] := by
    rw [fixAttrs_rec recursive hrec]
    simp [plainEntries, generated, inheritEntries, List.filter_cons,
      matchInherit_makeInherit, matchInherit_makeBind, expand, inheritBinds,
      inheritRhs, matchScope, makeScope]
  refine ⟨h, ?_, ?_⟩
  · intro x
    rw [h, bindingsOf_makeRec]
    simp only [List.mem_append, List.mem_cons, List.mem_singleton, List.not_mem_nil,
      or_false]
    tauto
  · rw [h, bindingsOf_makeRec]
    rfl

theorem fixAttrs_rec_inherit_plain_witness :
    fixAttrs 1 [makeInherit makeScope [.str "a", .str "b"] (.str "p"),
        makeBind (.str "c")
          (.appl "OpPlus" [makeVar (.str "a"), makeVar (.str "b")]) (.str "q")]
      = makeRec
          [makeBind (.str "c")
            (.appl "OpPlus" [makeVar (.str "a"), makeVar (.str "b")]) (.str "q")]
          [makeBind (.str "b") (makeVar (.str "b")) (.str "p"),
           makeBind (.str "a") (makeVar (.str "a")) (.str "p")] :=
  (fixAttrs_rec_inherit_plain 1 (.str "a") (.str "b") (.str "p") (.str "c")
    (.appl "OpPlus" [makeVar (.str "a"), makeVar (.str "b")]) (.str "q")
    (by decide)).1

/-! ## Diagnostics of the parse driver -/

theorem format_syntax_error (msg p l c : String) :
    format "%1%, at `%2%':%3%:%4%" [msg, p, l, c]
      = msg ++ ", at `" ++ p ++ "':" ++ l ++ ":" ++ c := by
  apply String.ext
  simp [format, formatChars, String.data_append]

theorem format_scope_error (msg p : String) :
    format "%1%, in `%2%'" [msg, p] = msg ++ ", in `" ++ p ++ "'" := by
  apply String.ext
  simp [format, formatChars, String.data_append]

/-- C8, as stated, fails: the path of a syntax diagnostic has a backquote on
its left and a straight quote on its right. A syntax error at line 3, column
5 in `/x.nix` gives ``msg, at `/x.nix':3:5`` and not `msg, at '/x.nix':3:5`,
both in what `parseError` stores and in what `parse` throws. -/
theorem parseError_quotes_differ :
    (parseError { result := .list [], basePath := "/", path := "/x.nix", error := "" }
        "msg" 3 5).error = "msg, at `/x.nix':3:5" ∧
    (parseError { result := .list [], basePath := "/", path := "/x.nix", error := "" }
        "msg" 3 5).error ≠ "msg, at '/x.nix':3:5" ∧
    parse syntaxErrorEnv sampleState "x = ;" "/x.nix" "/"
      = .error (Failure.error "syntax error, at `/x.nix':3:5") ∧
    parse syntaxErrorEnv sampleState "x = ;" "/x.nix" "/"
      ≠ .error (Failure.error "syntax error, at '/x.nix':3:5") := by
  decide

/-- C8, amended: for every message `msg`, line `l` and column `c`, the
diagnostic that `parseError` stores is exactly
``msg ++ ", at `" ++ path ++ "':" ++ l ++ ":" ++ c``, with a backquote before
the path and a straight quote after it; and when the grammar parser, called
by `parse` with logical path `p`, stores this diagnostic and returns
non-zero, `parse` throws `Error` with exactly that message for `p`. -/
theorem parse_syntax_error (env : Env) (state : EvalState) (text : String)
    (p b : Path) (d : ParseData) (msg : String) (l c res : Int)
    (hyy : env.yyparse text
        { result := env.uninit, basePath := b, path := p, error := "" }
      = (res, parseError d msg l c))
    (hpath : d.path = p) (hres : res ≠ 0) :
    (parseError d msg l c).error
        = msg ++ ", at `" ++ d.path ++ "':" ++ toString l ++ ":" ++ toString c ∧
      parse env state text p b
        = .error (Failure.error
            (msg ++ ", at `" ++ p ++ "':" ++ toString l ++ ":" ++ toString c)) := by
  have herr : (parseError d msg l c).error
      = msg ++ ", at `" ++ d.path ++ "':" ++ toString l ++ ":" ++ toString c := by
    simp only [parseError, format_syntax_error]
  refine ⟨herr, ?_⟩
  unfold parse
  simp only [hyy, hres, ne_eq, not_false_eq_true, if_true, herr, hpath]
  rfl

theorem parse_syntax_error_witness :
    (parseError { result := .list [], basePath := "/", path := "/x.nix", error := "" }
        "syntax error" 3 5).error
        = "syntax error" ++ ", at `" ++ "/x.nix" ++ "':" ++ toString (3 : Int) ++ ":"
            ++ toString (5 : Int) ∧
      parse syntaxErrorEnv sampleState "x = ;" "/x.nix" "/"
        = .error (Failure.error
            ("syntax error" ++ ", at `" ++ "/x.nix" ++ "':" ++ toString (3 : Int) ++ ":"
              ++ toString (5 : Int))) :=
  parse_syntax_error syntaxErrorEnv sampleState "x = ;" "/x.nix" "/"
    { result := .list [], basePath := "/", path := "/x.nix", error := "" }
    "syntax error" 3 5 1 (by decide) (by decide) (by decide)

/-- C9, as stated, fails: the path in the wrapper of a scope-check failure
has a backquote on its left and a straight quote on its right. With inner
message `m` the message of `parse` is ``m, in `/x.nix'`` and not
`m, in '/x.nix'`. -/
theorem scope_error_quotes_differ :
    parse scopeErrorEnv sampleState "x" "/x.nix" "/"
      = .error (Failure.error "undefined variable `x', in `/x.nix'") ∧
    parse scopeErrorEnv sampleState "x" "/x.nix" "/"
      ≠ .error (Failure.error "undefined variable `x', in '/x.nix'") := by
  decide

/-- C9, amended: for every text on which the grammar parser returns 0 and
every logical path `p`, `parse` calls `checkVarDefs` on the parse result with
the primitive operations of the evaluator state; if that fails with inner
message `m`, `parse` fails with the message exactly
``m ++ ", in `" ++ p ++ "'"``, with a backquote before the path and a
straight quote after it, and otherwise `parse` returns the parse result. -/
theorem parse_scope_error (env : Env) (state : EvalState) (text : String)
    (p b : Path) (d : ParseData)
    (hyy : env.yyparse text
        { result := env.uninit, basePath := b, path := p, error := "" } = (0, d)) :
    (∀ m, env.checkVarDefs state.primOps d.result = .error m →
        parse env state text p b
          = .error (Failure.error (m ++ ", in `" ++ p ++ "'"))) ∧
      (env.checkVarDefs state.primOps d.result = .ok () →
        parse env state text p b = .ok d.result) := by
  constructor
  · intro m hm
    unfold parse
    simp only [hyy, hm, format_scope_error]
    rfl
  · intro hok
    unfold parse
    simp only [hyy, hok]
    rfl

theorem parse_scope_error_witness :
    parse scopeErrorEnv sampleState "x" "/x.nix" "/"
      = .error (Failure.error ("undefined variable `x'" ++ ", in `" ++ "/x.nix" ++ "'")) :=
  (parse_scope_error scopeErrorEnv sampleState "x" "/x.nix" "/"
    { result := makeVar (.str "x"), basePath := "/", path := "/x.nix", error := "" }
    (by decide)).1 "undefined variable `x'" (by decide)

/-! ## Directories and `default.nix` -/

/-- A path that is a directory and no symbolic link is read at
`canonPath(path + "/default.nix")`. -/
theorem resolveAndRead_directory (env : Env) (p : Path) (st1 st2 : Stat)
    (habs : p.data.head? = some '/')
    (hl : env.lstat p = some st1) (hnl : st1.mode ≠ FileType.symlink)
    (hs : env.stat p = some st2) (hd : st2.mode = FileType.directory) :
    resolveAndRead env p = readResolved env (env.canonPath (p ++ "/default.nix")) := by
  unfold resolveAndRead readResolved
  simp [habs, hl, hs, S_ISLNK, S_ISDIR, hnl, hd]

/-- A path that is neither a symbolic link nor a directory is read as it
is. -/
theorem resolveAndRead_file (env : Env) (q : Path) (st1 st2 : Stat)
    (habs : q.data.head? = some '/')
    (hl : env.lstat q = some st1) (hnl : st1.mode ≠ FileType.symlink)
    (hs : env.stat q = some st2) (hd : st2.mode ≠ FileType.directory) :
    resolveAndRead env q = readResolved env q := by
  unfold resolveAndRead readResolved
  simp [habs, hl, hs, S_ISLNK, S_ISDIR, hnl, hd]

/-- C10, as stated, fails: when `default.nix` in the directory `/p` is itself
a symbolic link (to `/real/file.nix`), it can be opened and read, yet the
request for `/p` hands `parse` the logical path `/p/default.nix` and base
directory `/p`, while the request for `/p/default.nix` follows the link and
hands it `/real/file.nix` and `/real`; the relative path `./lib.nix` in the
text then parses to two different terms. -/
theorem directory_link_differs :
    resolveAndRead (sampleEnv true) "/p"
      = .ok ("./lib.nix", "/p/default.nix", "/p") ∧
    resolveAndRead (sampleEnv true) "/p/default.nix"
      = .ok ("./lib.nix", "/real/file.nix", "/real") ∧
    parseExprFromFile (sampleEnv true) sampleState "/p"
      = .ok (.appl "Path" [.str "/p/lib.nix"]) ∧
    parseExprFromFile (sampleEnv true) sampleState "/p/default.nix"
      = .ok (.appl "Path" [.str "/real/lib.nix"]) ∧
    parseExprFromFile (sampleEnv true) sampleState "/p"
      ≠ parseExprFromFile (sampleEnv true) sampleState "/p/default.nix" := by
  decide

/-- C10, amended: let `p` be an absolute path to a directory that is no
symbolic link, and let `q = canonPath(p + "/default.nix")` be absolute,
itself no symbolic link and no directory. Then `parseExprFromFile(p)` and
`parseExprFromFile(q)` hand the same text, the same logical path `q` and the
same base directory `dirOf(q)` to `parse` and give the same result; when `q`
can be opened and read with text `text`, both hand `(text, q, dirOf(q))` to
`parse` and return `parse(text, q, dirOf(q))`. -/
theorem parseExprFromFile_directory (env : Env) (state : EvalState) (p : Path)
    (st1 st2 st3 st4 : Stat)
    (habs : p.data.head? = some '/')
    (hl : env.lstat p = some st1) (hnl : st1.mode ≠ FileType.symlink)
    (hs : env.stat p = some st2) (hd : st2.mode = FileType.directory)
    (hqabs : (env.canonPath (p ++ "/default.nix")).data.head? = some '/')
    (hql : env.lstat (env.canonPath (p ++ "/default.nix")) = some st3)
    (hqnl : st3.mode ≠ FileType.symlink)
    (hqs : env.stat (env.canonPath (p ++ "/default.nix")) = some st4)
    (hqd : st4.mode ≠ FileType.directory) :
    resolveAndRead env p = resolveAndRead env (env.canonPath (p ++ "/default.nix")) ∧
      parseExprFromFile env state p
        = parseExprFromFile env state (env.canonPath (p ++ "/default.nix")) ∧
      (∀ fd st text,
        env.openRead (env.canonPath (p ++ "/default.nix")) = some fd →
        env.fstat fd = some st →
        env.readFull fd st.size = .ok text →
        resolveAndRead env p
            = .ok (text, env.canonPath (p ++ "/default.nix"),
                env.dirOf (env.canonPath (p ++ "/default.nix"))) ∧
          parseExprFromFile env state p
            = parse env state text (env.canonPath (p ++ "/default.nix"))
                (env.dirOf (env.canonPath (p ++ "/default.nix")))) := by
  have h1 := resolveAndRead_directory env p st1 st2 habs hl hnl hs hd
  have h2 := resolveAndRead_file env _ st3 st4 hqabs hql hqnl hqs hqd
  have heq : resolveAndRead env p
      = resolveAndRead env (env.canonPath (p ++ "/default.nix")) := by
    rw [h1, h2]
  refine ⟨heq, ?_, ?_⟩
  · simp only [parseExprFromFile, heq]
  · intro fd st text hopen hfstat hread
    have h3 : resolveAndRead env p
        = .ok (text, env.canonPath (p ++ "/default.nix"),
            env.dirOf (env.canonPath (p ++ "/default.nix"))) := by
      rw [h1]
      unfold readResolved
      simp [hopen, hfstat, hread, bind, Except.bind, pure, Except.pure]
    refine ⟨h3, ?_⟩
    simp only [parseExprFromFile, h3]
    rfl

theorem parseExprFromFile_directory_witness :
    resolveAndRead (sampleEnv false) "/p"
        = resolveAndRead (sampleEnv false)
            ((sampleEnv false).canonPath ("/p" ++ "/default.nix")) ∧
      parseExprFromFile (sampleEnv false) sampleState "/p"
        = parseExprFromFile (sampleEnv false) sampleState
            ((sampleEnv false).canonPath ("/p" ++ "/default.nix")) :=
  have h := parseExprFromFile_directory (sampleEnv false) sampleState "/p"
    { mode := .directory, size := 0 } { mode := .directory, size := 0 }
    { mode := .regular, size := 9 } { mode := .regular, size := 9 }
    (by decide) (by decide) (by decide) (by decide) (by decide) (by decide)
    (by decide) (by decide) (by decide) (by decide)
  ⟨h.1, h.2.1⟩

/-! ## Symbolic links -/

/-- A path that is a symbolic link is resolved once, with `readLink` and the
directory of the link; when the resolved path is no directory, it is the
path that is read. -/
theorem resolveAndRead_symlink (env : Env) (l target : Path) (st1 st2 : Stat)
    (habs : l.data.head? = some '/')
    (hl : env.lstat l = some st1) (hlnk : st1.mode = FileType.symlink)
    (hr : env.readLink l = .ok target)
    (hs : env.stat (env.absPath target (env.dirOf l)) = some st2)
    (hnd : st2.mode ≠ FileType.directory) :
    resolveAndRead env l = readResolved env (env.absPath target (env.dirOf l)) := by
  unfold resolveAndRead readResolved
  simp [habs, hl, hs, hr, S_ISLNK, S_ISDIR, hlnk, hnd, bind, Except.bind, pure,
    Except.pure]

/-- Whatever `readResolved` gives, its base directory is `dirOf` of its
path. -/
theorem readResolved_base (env : Env) (q text p b : Path)
    (h : readResolved env q = .ok (text, p, b)) : p = q ∧ b = env.dirOf q := by
  unfold readResolved at h
  cases ho : env.openRead q with
  | none => simp [ho, bind, Except.bind, throw, throwThe, MonadExceptOf.throw] at h
  | some fd =>
    cases hf : env.fstat fd with
    | none =>
      simp [ho, hf, bind, Except.bind, pure, Except.pure, throw, throwThe,
        MonadExceptOf.throw] at h
    | some st =>
      cases hrd : env.readFull fd st.size with
      | error e => simp [ho, hf, hrd, bind, Except.bind, pure, Except.pure] at h
      | ok t =>
        simp [ho, hf, hrd, bind, Except.bind, pure, Except.pure] at h
        exact ⟨h.2.1.symm, h.2.2.symm⟩

/-- Every successful run of the loader ends in `readResolved` at the final
value of `path`. -/
theorem resolveAndRead_final (env : Env) (path : Path) (x : String × Path × Path)
    (h : resolveAndRead env path = .ok x) : ∃ q, readResolved env q = .ok x := by
  unfold resolveAndRead at h
  by_cases habs : path.data.head? = some '/'
  · cases hl : env.lstat path with
    | none =>
      simp [habs, hl, bind, Except.bind, pure, Except.pure, throw, throwThe,
        MonadExceptOf.throw] at h
    | some st1 =>
      by_cases hlnk : S_ISLNK st1 = true
      · cases hr : env.readLink path with
        | error e =>
          simp [habs, hl, hlnk, hr, bind, Except.bind, pure, Except.pure] at h
        | ok target =>
          cases hs : env.stat (env.absPath target (env.dirOf path)) with
          | none =>
            simp [habs, hl, hlnk, hr, hs, bind, Except.bind, pure, Except.pure,
              throw, throwThe, MonadExceptOf.throw] at h
          | some st2 =>
            refine ⟨if S_ISDIR st2 = true then
                env.canonPath (env.absPath target (env.dirOf path) ++ "/default.nix")
              else env.absPath target (env.dirOf path), ?_⟩
            unfold readResolved
            simpa [habs, hl, hlnk, hr, hs, bind, Except.bind, pure, Except.pure]
              using h
      · cases hs : env.stat path with
        | none =>
          simp [habs, hl, hlnk, hs, bind, Except.bind, pure, Except.pure,
            throw, throwThe, MonadExceptOf.throw] at h
        | some st2 =>
          refine ⟨if S_ISDIR st2 = true then env.canonPath (path ++ "/default.nix")
            else path, ?_⟩
          unfold readResolved
          simpa [habs, hl, hlnk, hs, bind, Except.bind, pure, Except.pure] using h
  · simp [habs, bind, Except.bind, throw, throwThe, MonadExceptOf.throw] at h

/-- C11, as stated, fails in its "never": when the target of the link lies
in the directory of the link, the base directory handed to `parse` is the
directory of the link itself. For `/p/link.nix` with target `default.nix`
the logical path is `/p/default.nix` and the base directory is `/p`, which
is `dirOf` of the link. -/
theorem sibling_link_base_directory :
    resolveAndRead siblingLinkEnv "/p/link.nix"
        = .ok ("./lib.nix", "/p/default.nix", "/p") ∧
      siblingLinkEnv.absPath "default.nix" (siblingLinkEnv.dirOf "/p/link.nix")
        = "/p/default.nix" ∧
      siblingLinkEnv.dirOf "/p/link.nix" = "/p" := by
  decide

/-- C11, amended: for every absolute path `l` that is a symbolic link with
target `target`, whose resolved path `r = absPath(readLink(l), dirOf(l))` is
a file (no directory) that can be opened and read with text `text`,
`parseExprFromFile(l)` calls `parse` with the text, logical path `r` and base
directory `dirOf(r)`: the base directory is that of the resolved path (`/real`
for a link to `/real/file.nix`), and it is the directory of the link only
when the resolved path lies there; and in general, whenever the loader
reaches `parse`, the base directory it hands over is `dirOf` of the logical
path it hands over. -/
theorem parseExprFromFile_symlink (env : Env) (state : EvalState) (l target : Path)
    (st1 st2 st : Stat) (fd : Nat) (text : String)
    (habs : l.data.head? = some '/')
    (hl : env.lstat l = some st1) (hlnk : st1.mode = FileType.symlink)
    (hr : env.readLink l = .ok target)
    (hs : env.stat (env.absPath target (env.dirOf l)) = some st2)
    (hnd : st2.mode ≠ FileType.directory)
    (hopen : env.openRead (env.absPath target (env.dirOf l)) = some fd)
    (hfstat : env.fstat fd = some st)
    (hread : env.readFull fd st.size = .ok text) :
    resolveAndRead env l
        = .ok (text, env.absPath target (env.dirOf l),
            env.dirOf (env.absPath target (env.dirOf l))) ∧
      parseExprFromFile env state l
        = parse env state text (env.absPath target (env.dirOf l))
            (env.dirOf (env.absPath target (env.dirOf l))) ∧
      (∀ path t p b, resolveAndRead env path = .ok (t, p, b) → b = env.dirOf p) := by
  have h1 : resolveAndRead env l
      = .ok (text, env.absPath target (env.dirOf l),
          env.dirOf (env.absPath target (env.dirOf l))) := by
    rw [resolveAndRead_symlink env l target st1 st2 habs hl hlnk hr hs hnd]
    unfold readResolved
    simp [hopen, hfstat, hread, bind, Except.bind, pure, Except.pure]
  refine ⟨h1, ?_, ?_⟩
  · simp only [parseExprFromFile, h1]
    rfl
  · intro path t p b h
    obtain ⟨q, hq⟩ := resolveAndRead_final env path _ h
    obtain ⟨hp, hb⟩ := readResolved_base env q t p b hq
    rw [hb, hp]

theorem parseExprFromFile_symlink_witness :
    resolveAndRead (sampleEnv true) "/p/default.nix"
        = .ok ("./lib.nix", "/real/file.nix", "/real") ∧
      parseExprFromFile (sampleEnv true) sampleState "/p/default.nix"
        = parse (sampleEnv true) sampleState "./lib.nix" "/real/file.nix" "/real" ∧
      (sampleEnv true).dirOf "/p/default.nix" = "/p" :=
  have h := parseExprFromFile_symlink (sampleEnv true) sampleState "/p/default.nix"
    "/real/file.nix" { mode := .symlink, size := 9 } { mode := .regular, size := 9 }
    { mode := .regular, size := 9 } 3 "./lib.nix"
    (by decide) (by decide) (by decide) (by decide) (by decide) (by decide)
    (by decide) (by decide) (by decide)
  ⟨h.1, h.2.1, by decide⟩

/-! ## No `Inherit` node is left -/

/-- C12: for every entry list in which no plain entry (one that
`matchInherit` rejects) is itself an `Inherit` node, and for both values of
`recursive`, no element of any binding list of the node returned by
`fixAttrs` is an `Inherit` node, and none is matched by `matchInherit`:
every `inherit` clause has been replaced by `Bind` nodes. -/
theorem fixAttrs_no_inherit (recursive : Int) (as : ATermList)
    (hplain : ∀ e, e ∈ as → matchInherit e = none → isInheritNode e = false) :
    ∀ b, b ∈ bindingsOf (fixAttrs recursive as) →
      isInheritNode b = false ∧ matchInherit b = none := by
  intro b hb
  rw [mem_bindingsOf_fixAttrs] at hb
  simp only [desugared, List.mem_flatMap] at hb
  obtain ⟨e, he, hbe⟩ := hb
  unfold expand at hbe
  cases hm : matchInherit e with
  | none =>
    simp only [hm, List.mem_singleton] at hbe
    subst hbe
    exact ⟨hplain b he hm, hm⟩
  | some r =>
    obtain ⟨src, names, pos⟩ := r
    simp only [hm, inheritBinds, List.mem_map] at hbe
    obtain ⟨n, _, rfl⟩ := hbe
    exact ⟨rfl, rfl⟩

theorem fixAttrs_no_inherit_witness :
    isInheritNode (makeBind (.str "a") (makeVar (.str "a")) (.str "p")) = false ∧
      matchInherit (makeBind (.str "a") (makeVar (.str "a")) (.str "p")) = none :=
  fixAttrs_no_inherit 1
    [makeBind (.str "c") (.int 1) (.str "q"),
     makeInherit makeScope [.str "a"] (.str "p"),
     makeInherit (makeVar (.str "E")) [.str "x"] (.str "p")]
    (by decide) (makeBind (.str "a") (makeVar (.str "a")) (.str "p")) (by decide)

/-! ## The result of `parse` -/

theorem parse_of_yyparse_ne_zero (env : Env) (state : EvalState) (text : String)
    (p b : Path) (h : (env.yyparse text (initialData env p b)).1 ≠ 0) :
    parse env state text p b
      = .error (Failure.error (env.yyparse text (initialData env p b)).2.error) := by
  unfold parse
  simp only [initialData] at h
  simp only [h, ne_eq, not_false_eq_true, if_true]
  rfl

theorem parse_of_yyparse_zero (env : Env) (state : EvalState) (text : String)
    (p b : Path) (h : (env.yyparse text (initialData env p b)).1 = 0) :
    parse env state text p b
      = match env.checkVarDefs state.primOps
            (env.yyparse text (initialData env p b)).2.result with
        | .error msg => .error (Failure.error (format "%1%, in `%2%'" [msg, p]))
        | .ok _ => .ok (env.yyparse text (initialData env p b)).2.result := by
  unfold parse
  simp only [initialData] at h
  simp only [h, ne_eq, not_true_eq_false, if_false]
  rfl

/-- C13: `parse` has no partial result. For every input it either fails or
returns a term; when it returns `t`, the grammar parser returned 0 with result
`t` and `checkVarDefs` accepted `t` with the primitive operations of the
state; when the grammar parser returns non-zero, `parse` fails with the stored
syntax diagnostic whatever scope checker is supplied, so `checkVarDefs` has no
part in the outcome. -/
theorem parse_no_partial_result (env : Env) (state : EvalState) (text : String)
    (p b : Path) :
    ((∃ f, parse env state text p b = .error f) ∨
        (∃ t, parse env state text p b = .ok t)) ∧
      (∀ t, parse env state text p b = .ok t →
        (env.yyparse text (initialData env p b)).1 = 0 ∧
          (env.yyparse text (initialData env p b)).2.result = t ∧
          env.checkVarDefs state.primOps t = .ok ()) ∧
      ((env.yyparse text (initialData env p b)).1 ≠ 0 →
        ∀ chk, parse { env with checkVarDefs := chk } state text p b
          = .error (Failure.error
              (env.yyparse text (initialData env p b)).2.error)) := by
  refine ⟨?_, ?_, ?_⟩
  · cases h : parse env state text p b with
    | error f => exact Or.inl ⟨f, rfl⟩
    | ok t => exact Or.inr ⟨t, rfl⟩
  · intro t ht
    by_cases hres : (env.yyparse text (initialData env p b)).1 = 0
    · rw [parse_of_yyparse_zero env state text p b hres] at ht
      cases hc : env.checkVarDefs state.primOps
          (env.yyparse text (initialData env p b)).2.result with
      | error m => simp [hc] at ht
      | ok u =>
        simp only [hc, Except.ok.injEq] at ht
        refine ⟨hres, ht, ?_⟩
        rw [← ht, hc]
    · rw [parse_of_yyparse_ne_zero env state text p b hres] at ht
      simp at ht
  · intro hres chk
    exact parse_of_yyparse_ne_zero { env with checkVarDefs := chk } state text p b hres

theorem parse_no_partial_result_witness :
    parse (sampleEnv false) sampleState "./lib.nix" "/p/default.nix" "/p"
        = .ok (.appl "Path" [.str "/p/lib.nix"]) ∧
      ∀ chk, parse { syntaxErrorEnv with checkVarDefs := chk } sampleState "x = ;"
          "/x.nix" "/"
        = .error (Failure.error "syntax error, at `/x.nix':3:5") :=
  ⟨by decide,
   (parse_no_partial_result syntaxErrorEnv sampleState "x = ;" "/x.nix" "/").2.2
     (by decide)⟩

/-! ## Parsing a string -/

/-- C14: for every string `s` and base directory `b`,
`parseExprFromString(state, s, b)` is `parse(state, s, "(string)", b)`: the
logical path is the fixed marker `(string)` and the base directory of the
caller is passed on unchanged. Hence a syntax diagnostic stored for that
logical path and a scope-check failure both name `(string)` as the path. -/
theorem parseExprFromString_eq (env : Env) (state : EvalState) (s : String) (b : Path) :
    parseExprFromString env state s b = parse env state s "(string)" b ∧
      (∀ d msg l c,
        (env.yyparse s (initialData env "(string)" b)).1 ≠ 0 →
        (env.yyparse s (initialData env "(string)" b)).2 = parseError d msg l c →
        d.path = "(string)" →
        parseExprFromString env state s b
          = .error (Failure.error
              (msg ++ ", at `(string)':" ++ toString l ++ ":" ++ toString c))) ∧
      (∀ m,
        (env.yyparse s (initialData env "(string)" b)).1 = 0 →
        env.checkVarDefs state.primOps
            (env.yyparse s (initialData env "(string)" b)).2.result = .error m →
        parseExprFromString env state s b
          = .error (Failure.error (m ++ ", in `(string)'"))) := by
  refine ⟨rfl, ?_, ?_⟩
  · intro d msg l c hres hd hpath
    unfold parseExprFromString
    rw [parse_of_yyparse_ne_zero env state s "(string)" b hres, hd]
    simp only [parseError, format_syntax_error, hpath]
    congr 2
    apply String.ext
    simp [String.data_append]
  · intro m hres hm
    unfold parseExprFromString
    rw [parse_of_yyparse_zero env state s "(string)" b hres, hm]
    simp only [format_scope_error]
    congr 2
    apply String.ext
    simp [String.data_append]

theorem parseExprFromString_eq_witness :
    parseExprFromString syntaxErrorEnv sampleState "x = ;" "/base"
        = parse syntaxErrorEnv sampleState "x = ;" "(string)" "/base" ∧
      parseExprFromString syntaxErrorEnv sampleState "x = ;" "/base"
        = .error (Failure.error
            ("syntax error" ++ ", at `(string)':" ++ toString (3 : Int) ++ ":"
              ++ toString (5 : Int))) :=
  have h := parseExprFromString_eq syntaxErrorEnv sampleState "x = ;" "/base"
  ⟨h.1, h.2.1 { result := .list [], basePath := "/base", path := "(string)", error := "" }
    "syntax error" 3 5 (by decide) (by decide) (by decide)⟩

/-! ## Routing of bindings to the two accumulators -/

theorem fixAttrsAcc_rec (recursive : Int) (hrec : recursive ≠ 0) (as : ATermList) :
    fixAttrsAcc recursive as
      = { bs := (plainEntries as).reverse, cs := (generated as).reverse } := by
  simp [fixAttrsAcc, fixAttrsLoop_rec recursive hrec]

theorem fixAttrsAcc_nonrec (as : ATermList) :
    fixAttrsAcc 0 as = { bs := (desugared as).reverse, cs := [] } := by
  simp [fixAttrsAcc, fixAttrsLoop_nonrec]

theorem plainEntries_subset_desugared (as : ATermList) (e : ATerm)
    (he : e ∈ plainEntries as) : e ∈ desugared as := by
  simp only [plainEntries, List.mem_filter, Option.isNone_iff_eq_none] at he
  simp only [desugared, List.mem_flatMap]
  exact ⟨e, he.1, by simp [expand, he.2]⟩

/-- With entries at their own positions no plain entry is the same term as a
binding generated from an `inherit` clause. -/
theorem plain_not_generated (as : ATermList) (hpos : ownPositions as = true)
    (e : ATerm) (he : e ∈ plainEntries as) : e ∉ generated as := by
  intro hg
  simp only [plainEntries, List.mem_filter] at he
  simp only [generated, inheritEntries, List.mem_flatMap, List.mem_filter] at hg
  obtain ⟨i, ⟨hi, hsome⟩, hei⟩ := hg
  unfold expand at hei
  cases hm : matchInherit i with
  | none =>
    rw [hm] at hsome
    simp at hsome
  | some r =>
    obtain ⟨src, names, q⟩ := r
    simp only [hm, inheritBinds, List.mem_map] at hei
    obtain ⟨n, _, rfl⟩ := hei
    simp only [ownPositions, List.all_eq_true] at hpos
    have h := hpos _ he.1 i hi
    simp [matchBind_makeBind, hm] at h

/-- C15: for every entry list with its entries at their own positions, in
the node `Rec(bs, cs)` returned by `fixAttrs` with `recursive` non-zero the
bindings generated from `inherit` clauses, with explicit source or enclosing
scope alike, are all in the recursive accumulator `cs` (the second list
given to `makeRec`) and none is in the non-recursive accumulator `bs`; and
for both values of `recursive` every plain entry is in the non-recursive
accumulator and never in the recursive one. The two accumulators hold
exactly the generated bindings and exactly the plain entries. -/
theorem fixAttrs_routing (recursive : Int) (as : ATermList)
    (hpos : ownPositions as = true) :
    (recursive ≠ 0 →
        fixAttrs recursive as
            = makeRec (fixAttrsAcc recursive as).bs (fixAttrsAcc recursive as).cs ∧
          (fixAttrsAcc recursive as).cs = (generated as).reverse ∧
          (fixAttrsAcc recursive as).bs = (plainEntries as).reverse ∧
          (∀ b, b ∈ generated as →
            b ∈ (fixAttrsAcc recursive as).cs ∧
              b ∉ (fixAttrsAcc recursive as).bs)) ∧
      (∀ e, e ∈ plainEntries as →
        e ∈ (fixAttrsAcc recursive as).bs ∧ e ∉ (fixAttrsAcc recursive as).cs) := by
  refine ⟨?_, ?_⟩
  · intro hrec
    rw [fixAttrsAcc_rec recursive hrec]
    refine ⟨fixAttrs_rec recursive hrec as, rfl, rfl, ?_⟩
    intro b hb
    refine ⟨by simpa using hb, ?_⟩
    intro hbs
    exact plain_not_generated as hpos b (by simpa using hbs) hb
  · intro e he
    by_cases hrec : recursive = 0
    · subst hrec
      rw [fixAttrsAcc_nonrec]
      exact ⟨by simpa using plainEntries_subset_desugared as e he, by simp⟩
    · rw [fixAttrsAcc_rec recursive hrec]
      refine ⟨by simpa using he, ?_⟩
      intro hcs
      exact plain_not_generated as hpos e he (by simpa using hcs)

theorem fixAttrs_routing_witness :
    (fixAttrsAcc 1 [makeBind (.str "c") (.int 1) (.str "1:3"),
        makeInherit makeScope [.str "a"] (.str "1:10"),
        makeInherit (makeVar (.str "E")) [.str "x"] (.str "1:21")]).cs
      = (generated [makeBind (.str "c") (.int 1) (.str "1:3"),
        makeInherit makeScope [.str "a"] (.str "1:10"),
        makeInherit (makeVar (.str "E")) [.str "x"] (.str "1:21")]).reverse ∧
      makeBind (.str "a") (makeVar (.str "a")) (.str "1:10") ∉
        (fixAttrsAcc 1 [makeBind (.str "c") (.int 1) (.str "1:3"),
          makeInherit makeScope [.str "a"] (.str "1:10"),
          makeInherit (makeVar (.str "E")) [.str "x"] (.str "1:21")]).bs :=
  have h := (fixAttrs_routing 1
    [makeBind (.str "c") (.int 1) (.str "1:3"),
      makeInherit makeScope [.str "a"] (.str "1:10"),
      makeInherit (makeVar (.str "E")) [.str "x"] (.str "1:21")] (by decide)).1
    (by decide)
  ⟨h.2.1, (h.2.2.2 _ (by decide)).2⟩

/-! ## Plain entries are kept -/

theorem count_plainEntries (as : ATermList) (e : ATerm)
    (he : e ∈ plainEntries as) :
    List.count e (plainEntries as) = List.count e as := by
  simp only [plainEntries, List.mem_filter] at he
  exact List.count_filter he.2

/-- A plain entry occurs in the result as often as in the input and as a
generated binding together, whatever the positions. -/
theorem count_bindingsOf_fixAttrs (recursive : Int) (as : ATermList) (e : ATerm)
    (he : e ∈ plainEntries as) :
    List.count e (bindingsOf (fixAttrs recursive as))
      = List.count e as + List.count e (generated as) := by
  rw [((bindingsOf_fixAttrs_perm recursive as).trans (desugared_perm as)).count_eq e,
    List.count_append, count_plainEntries as e he]

/-- C16: for every entry list with its entries at their own positions and
both values of `recursive`, every plain entry `e` of the input occurs in the
output of `fixAttrs` as the same term, its source position included, and
with the same multiplicity as in the input (also within the first list of a
recursive node): `fixAttrs` never rewrites or drops a plain binding. -/
theorem fixAttrs_plain_kept (recursive : Int) (as : ATermList) (e : ATerm)
    (hpos : ownPositions as = true) (he : e ∈ plainEntries as) :
    e ∈ bindingsOf (fixAttrs recursive as) ∧
      List.count e (bindingsOf (fixAttrs recursive as)) = List.count e as ∧
      (recursive ≠ 0 → List.count e (fixAttrsAcc recursive as).bs = List.count e as) := by
  refine ⟨?_, ?_, ?_⟩
  · exact (mem_bindingsOf_fixAttrs recursive as e).2
      (plainEntries_subset_desugared as e he)
  · rw [count_bindingsOf_fixAttrs recursive as e he,
      List.count_eq_zero.2 (plain_not_generated as hpos e he)]
    rfl
  · intro hrec
    rw [fixAttrsAcc_rec recursive hrec]
    simp only [List.count_reverse]
    exact count_plainEntries as e he

theorem fixAttrs_plain_kept_witness :
    makeBind (.str "c") (.int 1) (.str "1:3") ∈
        bindingsOf (fixAttrs 0
          [makeBind (.str "c") (.int 1) (.str "1:3"),
            makeInherit makeScope [.str "a"] (.str "1:10"),
            makeBind (.str "c") (.int 1) (.str "1:3")]) ∧
      List.count (makeBind (.str "c") (.int 1) (.str "1:3"))
        (bindingsOf (fixAttrs 0
          [makeBind (.str "c") (.int 1) (.str "1:3"),
            makeInherit makeScope [.str "a"] (.str "1:10"),
            makeBind (.str "c") (.int 1) (.str "1:3")]))
        = List.count (makeBind (.str "c") (.int 1) (.str "1:3"))
          [makeBind (.str "c") (.int 1) (.str "1:3"),
            makeInherit makeScope [.str "a"] (.str "1:10"),
            makeBind (.str "c") (.int 1) (.str "1:3")] :=
  have h := fixAttrs_plain_kept 0
    [makeBind (.str "c") (.int 1) (.str "1:3"),
      makeInherit makeScope [.str "a"] (.str "1:10"),
      makeBind (.str "c") (.int 1) (.str "1:3")]
    (makeBind (.str "c") (.int 1) (.str "1:3")) (by decide) (by decide)
  ⟨h.1, h.2.1⟩

/-! ## The desugarer against its reference definition -/

theorem length_desugared (as : ATermList) :
    (desugared as).length = (plainEntries as).length + namesTotal as := by
  induction as with
  | nil => simp [desugared, plainEntries, namesTotal]
  | cons a as ih =>
    have hd : desugared (a :: as) = expand a ++ desugared as := by
      simp [desugared]
    rw [hd, List.length_append, ih]
    cases hm : matchInherit a with
    | none =>
      simp [expand, hm, plainEntries, namesTotal, List.filter_cons,
        List.filterMap_cons]
      omega
    | some r =>
      obtain ⟨src, names, pos⟩ := r
      simp [expand, hm, plainEntries, namesTotal, List.filter_cons,
        List.filterMap_cons, inheritBinds]
      omega

/-- C17: `fixAttrs` equals the reference definition, with reversed order.
With `expand(e)` the bindings `Bind(n, rhs(n), pos)` for `n` in `names`, in
order, for `e = Inherit(src, names, pos)` (`rhs(n) = Var(n)` for the scope
marker, else `Select(src, n)`), and `[e]` for a plain entry: for every entry
list `fixAttrs(0, as) = Attrs(reverse(concat(map expand as)))` and, for
non-zero `recursive`, `fixAttrs(recursive, as) = Rec(reverse(plain entries),
reverse(concat(map expand (inherit entries))))`; and the number of bindings
of the result is the number of plain entries plus the sum of the lengths of
all `names` lists. -/
theorem fixAttrs_eq_fixAttrsRef (recursive : Int) (as : ATermList) :
    fixAttrs recursive as = fixAttrsRef (decide (recursive ≠ 0)) as ∧
      fixAttrs 0 as = makeAttrs ((as.map expand).flatten.reverse) ∧
      (recursive ≠ 0 →
        fixAttrs recursive as
          = makeRec (plainEntries as).reverse
              ((inheritEntries as).map expand).flatten.reverse) ∧
      (bindingsOf (fixAttrs recursive as)).length
        = (plainEntries as).length + namesTotal as := by
  have h0 : fixAttrs 0 as = makeAttrs ((as.map expand).flatten.reverse) := by
    rw [fixAttrs_nonrec, desugared, List.flatMap_def]
  have h1 : recursive ≠ 0 →
      fixAttrs recursive as
        = makeRec (plainEntries as).reverse
            ((inheritEntries as).map expand).flatten.reverse := by
    intro hrec
    rw [fixAttrs_rec recursive hrec, generated, List.flatMap_def]
  refine ⟨?_, h0, h1, ?_⟩
  · by_cases hrec : recursive = 0
    · subst hrec
      rw [h0]
      simp [fixAttrsRef]
    · rw [h1 hrec]
      simp [fixAttrsRef, hrec]
  · rw [(bindingsOf_fixAttrs_perm recursive as).length_eq, length_desugared]

theorem fixAttrs_eq_fixAttrsRef_witness :
    fixAttrs 1 [makeBind (.str "c") (.int 1) (.str "q"),
        makeInherit makeScope [.str "a", .str "b"] (.str "p")]
      = makeRec [makeBind (.str "c") (.int 1) (.str "q")]
          [makeBind (.str "b") (makeVar (.str "b")) (.str "p"),
           makeBind (.str "a") (makeVar (.str "a")) (.str "p")] :=
  ((fixAttrs_eq_fixAttrsRef 1 _).2.2.1 (by decide)).trans (by decide)

/-! ## The buffer of `toJSON` -/

theorem take_succ_set (l : List CChar) (n : Nat) (c : CChar) (h : n < l.length) :
    (l.set n c).take (n + 1) = l.take n ++ [c] := by
  induction l generalizing n with
  | nil => simp at h
  | cons a l ih =>
    cases n with
    | zero => simp
    | succ n =>
      simp only [List.length_cons, Nat.add_lt_add_iff_right] at h
      simp [ih n h]

theorem BufInv.mono (s : JsonBuf) (k : Nat) (text : List CChar)
    (h : BufInv s k text) (k2 : Nat) (hk : k ≤ k2) : BufInv s k2 text := by
  obtain ⟨h1, h2, h3, h4, h5, h6⟩ := h
  exact ⟨h1, le_trans h2 hk, h3, h4, h5, h6⟩

theorem put_inv (s : JsonBuf) (k : Nat) (text : List CChar) (c : CChar)
    (h : BufInv s k text) (hk : k ≤ BUF_SIZE + 5) :
    BufInv (put s c) (k + 1) (text ++ [c]) := by
  obtain ⟨h1, h2, h3, h4, h5, h6⟩ := h
  have hlt : s.bufPos < s.buf.length := by rw [h1]; omega
  refine ⟨?_, ?_, ?_, ⟨h4.1, ?_⟩, ?_, h6⟩
  · simp [put, h1]
  · simp only [put]; omega
  · simp only [put]
    rw [take_succ_set s.buf s.bufPos c hlt, ← List.append_assoc, h3]
  · simp only [put, List.length_cons]
    omega
  · intro i hi
    simp only [put, List.mem_cons] at hi
    rcases hi with hi | hi
    · omega
    · exact h5 i hi

theorem flush_inv (s : JsonBuf) (k : Nat) (text : List CChar)
    (h : BufInv s k text) (hk : k ≤ BUF_SIZE + 6) :
    BufInv (flush s) 0 text := by
  obtain ⟨h1, h2, h3, h4, h5, h6⟩ := h
  have hlen : (s.buf.take s.bufPos).length = s.bufPos := by
    rw [List.length_take, h1]; omega
  refine ⟨h1, le_refl 0, ?_, ?_, h5, ?_⟩
  · simp only [flush, List.take_zero, List.append_nil]
    exact h3
  · simp only [flush, List.length_append, List.sum_cons, hlen]
    omega
  · intro n hn
    simp only [flush, List.mem_cons] at hn
    rcases hn with hn | hn
    · omega
    · exact h6 n hn

theorem cc_values :
    cc '\"' = 34 ∧ cc '\\' = 92 ∧ cc '\n' = 10 ∧ cc '\r' = 13 ∧ cc '\t' = 9 ∧
      cc 'n' = 110 ∧ cc 'r' = 114 ∧ cc 't' = 116 ∧ cc 'u' = 117 ∧
      cc '0' = 48 ∧ cc '9' = 57 ∧ cc 'a' = 97 ∧ cc 'f' = 102 := by
  decide

theorem hexAt_control (c : CChar) (h0 : 0 ≤ c) (h1 : c < 32) :
    hexAt ((uint16 c >>> 12) &&& 0xf) = cc '0' ∧
      hexAt ((uint16 c >>> 8) &&& 0xf) = cc '0' ∧
      hexAt ((uint16 c >>> 4) &&& 0xf) = hexDigit (c.toNat / 16) ∧
      hexAt ((uint16 c >>> 0) &&& 0xf) = hexDigit (c.toNat % 16) := by
  obtain ⟨k, rfl⟩ := Int.eq_ofNat_of_zero_le h0
  have hk : k < 32 := by exact_mod_cast h1
  interval_cases k <;> decide

theorem check_inv (s : JsonBuf) (text : List CChar)
    (h : BufInv s (BUF_SIZE + 5) text) :
    BufInv (if s.bufPos ≥ BUF_SIZE then flush s else s) 4095 text := by
  by_cases hb : s.bufPos ≥ BUF_SIZE
  · simp only [hb, if_true]
    exact BufInv.mono _ _ _ (flush_inv s _ text h (by decide)) 4095 (by decide)
  · simp only [hb, if_false]
    obtain ⟨h1, _, h3, h4, h5, h6⟩ := h
    refine ⟨h1, ?_, h3, h4, h5, h6⟩
    simp only [BUF_SIZE] at hb
    omega

theorem toJSONStep_inv (s : JsonBuf) (text : List CChar) (c : CChar)
    (h : BufInv s (BUF_SIZE + 5) text) :
    BufInv (toJSONStep s c) (BUF_SIZE + 5) (text ++ escapeRef c) := by
  have hs := check_inv s text h
  obtain ⟨q34, q92, q10, q13, q9, qn, qr, qt, qu, q0, _, _, _⟩ := cc_values
  unfold toJSONStep escapeRef
  generalize (if s.bufPos ≥ BUF_SIZE then flush s else s) = s1 at hs
  simp only []
  by_cases c1 : c = cc '\"' ∨ c = cc '\\'
  · simp only [c1, if_true]
    have a1 := put_inv s1 _ _ (cc '\\') hs (by decide)
    have a2 := put_inv _ _ _ c a1 (by decide)
    simpa [List.append_assoc] using BufInv.mono _ _ _ a2 (BUF_SIZE + 5) (by decide)
  · simp only [c1, if_false]
    by_cases c2 : c = cc '\n'
    · have c2b : c = 10 := by rw [c2, q10]
      simp only [c2, c2b, if_true]
      have a1 := put_inv s1 _ _ (cc '\\') hs (by decide)
      have a2 := put_inv _ _ _ (cc 'n') a1 (by decide)
      simpa [List.append_assoc] using BufInv.mono _ _ _ a2 (BUF_SIZE + 5) (by decide)
    · have c2b : ¬ c = 10 := by rw [← q10]; exact c2
      simp only [c2, c2b, if_false]
      by_cases c3 : c = cc '\r'
      · have c3b : c = 13 := by rw [c3, q13]
        simp only [c3, c3b, if_true]
        have a1 := put_inv s1 _ _ (cc '\\') hs (by decide)
        have a2 := put_inv _ _ _ (cc 'r') a1 (by decide)
        simpa [List.append_assoc] using BufInv.mono _ _ _ a2 (BUF_SIZE + 5) (by decide)
      · have c3b : ¬ c = 13 := by rw [← q13]; exact c3
        simp only [c3, c3b, if_false]
        by_cases c4 : c = cc '\t'
        · have c4b : c = 9 := by rw [c4, q9]
          simp only [c4, c4b, if_true]
          have a1 := put_inv s1 _ _ (cc '\\') hs (by decide)
          have a2 := put_inv _ _ _ (cc 't') a1 (by decide)
          simpa [List.append_assoc] using BufInv.mono _ _ _ a2 (BUF_SIZE + 5) (by decide)
        · have c4b : ¬ c = 9 := by rw [← q9]; exact c4
          simp only [c4, c4b, if_false]
          by_cases c5 : c ≥ 0 ∧ c < 32
          · have c5b : 0 ≤ c ∧ c ≤ 31 := ⟨c5.1, Int.lt_add_one_iff.1 c5.2⟩
            obtain ⟨e1, e2, e3, e4⟩ := hexAt_control c c5.1 c5.2
            simp only [c5, c5b, if_true, e1, e2, e3, e4]
            have a1 := put_inv s1 _ _ (cc '\\') hs (by decide)
            have a2 := put_inv _ _ _ (cc 'u') a1 (by decide)
            have a3 := put_inv _ _ _ (cc '0') a2 (by decide)
            have a4 := put_inv _ _ _ (cc '0') a3 (by decide)
            have a5 := put_inv _ _ _ (hexDigit (c.toNat / 16)) a4 (by decide)
            have a6 := put_inv _ _ _ (hexDigit (c.toNat % 16)) a5 (by decide)
            simpa [List.append_assoc] using BufInv.mono _ _ _ a6 (BUF_SIZE + 5) (by decide)
          · have c5b : ¬ (0 ≤ c ∧ c ≤ 31) := by
              intro hc; exact c5 ⟨hc.1, Int.lt_add_one_iff.2 hc.2⟩
            simp only [c5, c5b, if_false]
            have a1 := put_inv s1 _ _ c hs (by decide)
            exact BufInv.mono _ _ _ a1 (BUF_SIZE + 5) (by decide)

theorem toJSONLoop_inv (garbage : Nat → CChar) (input : List CChar) :
    BufInv (toJSONLoop garbage input) (BUF_SIZE + 5) (cc '\"' :: encodeBody input) := by
  have hfold : ∀ (l : List CChar) (s : JsonBuf) (text : List CChar),
      BufInv s (BUF_SIZE + 5) text →
      BufInv (l.foldl toJSONStep s) (BUF_SIZE + 5) (text ++ encodeBody l) := by
    intro l
    induction l with
    | nil => intro s text h; simpa [encodeBody] using h
    | cons c l ih =>
      intro s text h
      have := ih (toJSONStep s c) (text ++ escapeRef c) (toJSONStep_inv s text c h)
      simpa [encodeBody, List.append_assoc] using this
  have hinit : BufInv (toJSONInit garbage) 0 [] := by
    refine ⟨by simp [toJSONInit], le_refl 0, by simp [toJSONInit],
      ⟨by simp [toJSONInit], by simp [toJSONInit]⟩,
      by simp [toJSONInit], by simp [toJSONInit]⟩
  have h1 := put_inv _ _ _ (cc '\"') hinit (by decide)
  have h2 := hfold input _ _ (BufInv.mono _ _ _ h1 (BUF_SIZE + 5) (by decide))
  simpa [toJSONLoop] using h2

theorem toJSON_inv (garbage : Nat → CChar) (input : List CChar) :
    BufInv (toJSON garbage input) 0 (encodeRef input) := by
  have h1 := put_inv _ _ _ (cc '\"') (toJSONLoop_inv garbage input) (le_refl _)
  have h2 := flush_inv _ _ _ h1 (le_refl _)
  simpa [toJSON, encodeRef] using h2

theorem toJSON_str (garbage : Nat → CChar) (input : List CChar) :
    (toJSON garbage input).str = encodeRef input := by
  obtain ⟨_, h2, h3, _⟩ := toJSON_inv garbage input
  have hz : (toJSON garbage input).bufPos = 0 := by omega
  simpa [hz] using h3

/-- C18: for every string given to `toJSON`, and whatever the array `buf`
held before, every index written through `put` is strictly less than
`BUF_SIZE + 7 = 4103`, the size of `buf` (it is at most 4101), and every
flush writes at most that many characters (at most 4102); every character
of the output went through `put`. -/
theorem toJSON_buffer_bounds (garbage : Nat → CChar) (input : List CChar) :
    BUF_SIZE + 7 = 4103 ∧
      (toJSON garbage input).buf.length = BUF_SIZE + 7 ∧
      (∀ i, i ∈ (toJSON garbage input).putLog → i < BUF_SIZE + 7 ∧ i ≤ 4101) ∧
      (∀ n, n ∈ (toJSON garbage input).flushLog → n ≤ BUF_SIZE + 7 ∧ n ≤ 4102) ∧
      (toJSON garbage input).putLog.length = (toJSON garbage input).str.length := by
  obtain ⟨h1, h2, _, h4, h5, h6⟩ := toJSON_inv garbage input
  refine ⟨rfl, h1, ?_, ?_, ?_⟩
  · intro i hi
    have := h5 i hi
    simp only [BUF_SIZE] at this ⊢
    omega
  · intro n hn
    have := h6 n hn
    simp only [BUF_SIZE] at this ⊢
    omega
  · omega

/-- C19: for every string of any length, the characters that `toJSON`
writes to the stream, concatenated over all flushes, are the unbuffered
reference encoding: a double quote, for each character in order its
reference escape, and a closing double quote. All of it is written (the
buffer is empty at the end, and the sizes of the flushes add up to the
length of the encoding), so nothing is lost, duplicated or reordered at a
buffer boundary. -/
theorem toJSON_eq_encodeRef (garbage : Nat → CChar) (input : List CChar) :
    (toJSON garbage input).str = encodeRef input ∧
      (toJSON garbage input).str
        = cc '\"' :: input.flatMap escapeRef ++ [cc '\"'] ∧
      (toJSON garbage input).bufPos = 0 ∧
      (toJSON garbage input).flushLog.sum = (encodeRef input).length := by
  obtain ⟨_, h2, _, h4, _, _⟩ := toJSON_inv garbage input
  have hs := toJSON_str garbage input
  refine ⟨hs, hs, by omega, ?_⟩
  rw [← hs]
  exact h4.1.symm

/-! ## Decoding the JSON string encoding -/

theorem hexDigit_value (k : Nat) (hk : k < 16) :
    hexValue (hexDigit k) = k ∧ 48 ≤ hexDigit k := by
  interval_cases k <;> decide

theorem decRun_append (st : DecState) (l1 l2 : List CChar) :
    decRun st (l1 ++ l2) = decRun (decRun st l1) l2 := by
  simp [decRun, List.foldl_append]

/-- The reader, in normal mode, reads the escape of a character as that
character and is in normal mode again. -/
theorem decRun_escapeRef (out : List CChar) (c : Int) :
    decRun { mode := .normal, out := out } (escapeRef c)
      = { mode := .normal, out := out ++ [c] } := by
  unfold escapeRef
  by_cases c1 : c = cc '\"' ∨ c = cc '\\'
  · simp only [c1, if_true]
    rcases c1 with rfl | rfl <;> rfl
  · simp only [c1, if_false]
    by_cases c2 : c = 10
    · subst c2; rfl
    · simp only [c2, if_false]
      by_cases c3 : c = 13
      · subst c3; rfl
      · simp only [c3, if_false]
        by_cases c4 : c = 9
        · subst c4; rfl
        · simp only [c4, if_false]
          by_cases c5 : 0 ≤ c ∧ c ≤ 31
          · simp only [c5, if_true]
            obtain ⟨k, rfl⟩ := Int.eq_ofNat_of_zero_le c5.1
            have hk : k < 32 := by
              have := c5.2
              omega
            interval_cases k <;> rfl
          · simp only [c5, if_false]
            have h34 : ¬ c = cc '\"' := fun h => c1 (Or.inl h)
            have h92 : ¬ c = cc '\\' := fun h => c1 (Or.inr h)
            simp [decRun, decStep, h34, h92]

theorem decRun_encodeBody (out s : List CChar) :
    decRun { mode := .normal, out := out } (encodeBody s)
      = { mode := .normal, out := out ++ s } := by
  induction s generalizing out with
  | nil => simp [encodeBody, decRun]
  | cons c s ih =>
    have hb : encodeBody (c :: s) = escapeRef c ++ encodeBody s := by
      simp [encodeBody]
    rw [hb, decRun_append, decRun_escapeRef, ih]
    simp

theorem decode_encodeRef (s : List CChar) : decode (encodeRef s) = s := by
  have h : decode (encodeRef s)
      = (decRun { mode := .normal, out := [] } (encodeBody s ++ [cc '\"'])).out := rfl
  rw [h, decRun_append, decRun_encodeBody]
  simp [decRun, decStep]

theorem hexDigit_ge (k : Nat) : 48 ≤ hexDigit k := by
  unfold hexDigit
  obtain ⟨_, _, _, _, _, _, _, _, _, q0, _, qa, _⟩ := cc_values
  by_cases h : k < 10
  · simp only [h, if_true, q0]
    show (48 : Int) ≤ 48 + (k : Int)
    omega
  · simp only [h, if_false, qa]
    show (48 : Int) ≤ 97 + ((k - 10 : Nat) : Int)
    omega

/-- The escape of a character holds no character from 0 to 31, and a double
quote only as the second character of the pair backslash, double quote. -/
theorem escapeRef_chars (c : Int) :
    (∀ x, x ∈ escapeRef c → ¬ (0 ≤ x ∧ x ≤ 31)) ∧
      (∀ pre rest, escapeRef c = pre ++ cc '\"' :: rest → pre = [cc '\\']) := by
  obtain ⟨q34, q92, _, _, _, qn, qr, qt, qu, q0, _, _, _⟩ := cc_values
  have hsplit : ∀ (tok pre rest : List CChar), tok = pre ++ cc '\"' :: rest →
      cc '\"' ∈ tok := by
    intro tok pre rest h
    rw [h]
    simp
  unfold escapeRef
  by_cases c1 : c = cc '\"' ∨ c = cc '\\'
  · simp only [c1, if_true]
    constructor
    · intro x hx
      simp only [List.mem_cons, List.mem_singleton, List.not_mem_nil, or_false] at hx
      rcases c1 with rfl | rfl <;> rcases hx with rfl | rfl <;> decide
    · intro pre rest h
      rcases pre with _ | ⟨a, _ | ⟨b, pre⟩⟩
      · simp only [List.nil_append, List.cons.injEq] at h
        exact absurd h.1 (by decide)
      · simp only [List.cons_append, List.nil_append, List.cons.injEq] at h
        rw [h.1]
      · simp at h
  · simp only [c1, if_false]
    have h34 : ¬ c = 34 := fun h => c1 (Or.inl (by rw [h, q34]))
    by_cases c2 : c = 10
    · simp only [c2, if_true]
      exact ⟨by decide, fun pre rest h => absurd (hsplit _ pre rest h) (by decide)⟩
    · simp only [c2, if_false]
      by_cases c3 : c = 13
      · simp only [c3, if_true]
        exact ⟨by decide, fun pre rest h => absurd (hsplit _ pre rest h) (by decide)⟩
      · simp only [c3, if_false]
        by_cases c4 : c = 9
        · simp only [c4, if_true]
          exact ⟨by decide, fun pre rest h => absurd (hsplit _ pre rest h) (by decide)⟩
        · simp only [c4, if_false]
          by_cases c5 : 0 ≤ c ∧ c ≤ 31
          · rw [if_pos c5]
            have g1 : (48 : Int) ≤ hexDigit (c.toNat / 16) := hexDigit_ge _
            have g2 : (48 : Int) ≤ hexDigit (c.toNat % 16) := hexDigit_ge _
            have hall : ∀ x : Int, x ∈ [cc '\\', cc 'u', cc '0', cc '0',
                hexDigit (c.toNat / 16), hexDigit (c.toNat % 16)] → 48 ≤ x := by
              intro x hx
              simp only [List.mem_cons, List.mem_singleton, List.not_mem_nil,
                or_false] at hx
              rcases hx with h | h | h | h | h | h
              · rw [h, q92]; decide
              · rw [h, qu]; decide
              · rw [h, q0]
              · rw [h, q0]
              · rw [h]; exact g1
              · rw [h]; exact g2
            constructor
            · intro x hx hc
              exact absurd (le_trans (hall x hx) hc.2) (by decide)
            · intro pre rest h
              have hm := hall _ (hsplit _ pre rest h)
              rw [q34] at hm
              exact absurd hm (by decide)
          · rw [if_neg c5]
            constructor
            · intro x hx
              simp only [List.mem_singleton] at hx
              rw [hx]
              exact c5
            · intro pre rest h
              have hm := hsplit _ pre rest h
              simp only [List.mem_singleton, q34] at hm
              exact absurd hm.symm h34

/-- In the text between the quotes every double quote stands right after a
backslash that the reader met in normal mode. -/
theorem encodeBody_quote (s pre rest out : List CChar)
    (h : encodeBody s = pre ++ cc '\"' :: rest) :
    (decRun { mode := .normal, out := out } pre).mode = DecMode.escaped ∧
      pre.getLast? = some (cc '\\') := by
  induction s generalizing pre out with
  | nil => simp [encodeBody] at h
  | cons c s ih =>
    have hb : encodeBody (c :: s) = escapeRef c ++ encodeBody s := by
      simp [encodeBody]
    rw [hb, List.append_eq_append_iff] at h
    rcases h with ⟨a, hpre, hbody⟩ | ⟨d, htok, hrest⟩
    · obtain ⟨hm, hl⟩ := ih a (out ++ [c]) hbody
      subst hpre
      rw [decRun_append, decRun_escapeRef]
      refine ⟨hm, ?_⟩
      have hne : a ≠ [] := by
        intro ha
        rw [ha] at hl
        simp at hl
      rw [List.getLast?_append_of_ne_nil _ hne, hl]
    · rcases d with _ | ⟨x, d⟩
      · simp only [List.nil_append] at hrest
        obtain ⟨hm, _⟩ := ih [] (out ++ [c]) hrest.symm
        simp [decRun] at hm
      · simp only [List.cons_append, List.cons.injEq] at hrest
        rw [← hrest.1] at htok
        have hp := (escapeRef_chars c).2 pre d htok
        subst hp
        exact ⟨rfl, rfl⟩

/-- C20: the string encoding of `toJSON` has the left inverse `decode`, so
it is injective: `decode` gives back every string from what `toJSON` wrote,
and two strings with the same output are equal. Moreover the output is a
double quote, a body and a double quote, where the body holds no character
from 0 to 31, and every double quote in the body stands right after an
escaping backslash (one that a reader meets in normal mode). -/
theorem toJSON_decode (garbage : Nat → CChar) (s : List CChar) :
    decode (toJSON garbage s).str = s ∧
      (∀ (g1 g2 : Nat → CChar) (s1 s2 : List CChar),
        (toJSON g1 s1).str = (toJSON g2 s2).str → s1 = s2) ∧
      (∃ body, (toJSON garbage s).str = cc '\"' :: body ++ [cc '\"'] ∧
        (∀ x, x ∈ body → ¬ (0 ≤ x ∧ x ≤ 31)) ∧
        (∀ pre rest, body = pre ++ cc '\"' :: rest →
          pre.getLast? = some (cc '\\') ∧
            (decRun { mode := .normal, out := [] } pre).mode = DecMode.escaped)) := by
  refine ⟨?_, ?_, ?_⟩
  · rw [toJSON_str, decode_encodeRef]
  · intro g1 g2 s1 s2 h
    have h1 := decode_encodeRef s1
    have h2 := decode_encodeRef s2
    rw [toJSON_str, toJSON_str] at h
    rw [← h1, ← h2, h]
  · refine ⟨encodeBody s, ?_, ?_, ?_⟩
    · rw [toJSON_str]
      rfl
    · intro x hx
      simp only [encodeBody, List.mem_flatMap] at hx
      obtain ⟨c, _, hc⟩ := hx
      exact (escapeRef_chars c).1 x hc
    · intro pre rest h
      obtain ⟨hm, hl⟩ := encodeBody_quote s pre rest [] h
      exact ⟨hl, hm⟩

end Nix
